import Mathlib

/-
  Verification of the reconciliation engine of `coolify-deploy`
  (src/reconciler.ts), shallowly embedded in Lean 4.

  Modelling conventions:
  - JavaScript strings are Lean `String`s; the line-oriented parser works on
    `List Char` for proof transparency.
  - The remote API client (`CoolifyClient`, whose implementation lives in a
    file not contained in this snapshot; §6 of the spec gives its contract)
    is a record of state-passing operations `σ → Res σ α`, where
    `Res.err msg s` models a thrown exception carrying `msg` and the remote
    state `s` at the time of the throw.  Reconciler methods are translated
    into explicit state-passing style; `await p` that may reject becomes a
    `match` on `Res`.
  - Logging calls are effect-free for every property considered and are
    dropped.
  - JS truthiness tests on strings (`if (envFileContent)`, `if (!serverId)`)
    are translated as emptiness tests, and `a ?? b` on optional strings as
    `Option.orElse`.
-/

namespace CoolifyDeploy

/-! ## Secret content parser (`parseEnvFile`, reconciler.ts lines 47-81) -/

/-- First character of the key regex `[A-Za-z_]`. -/
def isKeyStartChar (c : Char) : Bool := c.isAlpha || c = '_'

/-- Continuation characters of the key regex `[A-Za-z0-9_]*`. -/
def isKeyTailChar (c : Char) : Bool := c.isAlphanum || c = '_'

/-- `content.split(/\r?\n/)`: split on `\n`, consuming one `\r` directly
before each `\n` (and only there). -/
def splitNL : List Char → List (List Char)
  | [] => [[]]
  | '\r' :: '\n' :: rest => [] :: splitNL rest
  | '\n' :: rest => [] :: splitNL rest
  | c :: rest =>
    match splitNL rest with
    | [] => [[c]]
    | l :: ls => (c :: l) :: ls

/-- `line.trim()` (ASCII whitespace, as relevant to this code base). -/
def trimChars (l : List Char) : List Char :=
  ((l.dropWhile Char.isWhitespace).reverse.dropWhile Char.isWhitespace).reverse

/-- Quote handling of reconciler.ts lines 69-75: strip one layer of a
matched pair of quotes (`value.slice(1, -1)`); a value starting with a
quote that is not matched at the end makes the line be skipped (`none`). -/
def unquote (v : List Char) : Option (List Char) :=
  if (v.head? = some '"' && v.getLast? = some '"')
      || (v.head? = some '\'' && v.getLast? = some '\'') then
    some (v.drop 1).dropLast
  else if (v.head? = some '"' && !(v.getLast? = some '"'))
      || (v.head? = some '\'' && !(v.getLast? = some '\'')) then
    none
  else
    some v

/-- `trimmed.match(/^([A-Za-z_][A-Za-z0-9_]*)=(.*)$/)` followed by the quote
handling: returns the key/value pair, or `none` when the line is skipped.
In a JS regex without the `s` flag, `.` does not match `\n` or `\r`, hence
the explicit check on the value. -/
def parseLine (l : List Char) : Option (String × String) :=
  match l with
  | [] => none
  | c :: rest =>
    if isKeyStartChar c then
      let keyTail := rest.takeWhile isKeyTailChar
      let after := rest.dropWhile isKeyTailChar
      match after with
      | '=' :: v =>
        if v.contains '\n' || v.contains '\r' then none
        else
          match unquote v with
          | some v' => some (String.mk (c :: keyTail), String.mk v')
          | none => none
      | _ => none
    else none

/-- `result[key] = value` on a JS object: insertion-ordered, last write
wins in place. -/
def insertJS : List (String × String) → String → String → List (String × String)
  | [], k, v => [(k, v)]
  | (k', v') :: rest, k, v =>
    if k' = k then (k', v) :: rest else (k', v') :: insertJS rest k v

/-- One iteration of the `for (const line of lines)` loop of
reconciler.ts lines 51-78. -/
def parseEnvStep (acc : List (String × String)) (line : List Char) :
    List (String × String) :=
  let trimmed := trimChars line
  if trimmed = [] then acc
  else if trimmed.head? = some '#' then acc
  else
    match parseLine trimmed with
    | none => acc
    | some (k, v) => insertJS acc k v

/-- `parseEnvFile` (reconciler.ts lines 47-81), with the resulting JS object
modelled as an insertion-ordered association list. -/
def parseEnvFile (content : String) : List (String × String) :=
  (splitNL content.toList).foldl parseEnvStep []

/-- Joins lines with `\n` (for re-serialization of a parsed mapping). -/
def joinLines : List (List Char) → List Char
  | [] => []
  | [l] => l
  | l :: ls => l ++ '\n' :: joinLines ls

/-- Serializes a mapping back to `KEY=value` lines. -/
def serializeEnv (m : List (String × String)) : String :=
  String.mk (joinLines (m.map (fun p => p.1.toList ++ '=' :: p.2.toList)))

/-- `true` iff the list does not end in a whitespace character. -/
def lastNotWS (l : List Char) : Bool :=
  match l.getLast? with
  | some c => !c.isWhitespace
  | none => true

/-! ## Wire format (`envVarsToCoolifyFormat`, reconciler.ts lines 86-95) -/

/-- `CoolifyEnvVar` wire-format entry. -/
structure CoolifyEnvVar where
  key : String
  value : String
  is_preview : Bool
  is_literal : Bool
  is_multiline : Bool
  is_shown_once : Bool
deriving DecidableEq, Repr

/-- `envVarsToCoolifyFormat` (reconciler.ts lines 86-95). -/
def envVarsToCoolifyFormat (envVars : List (String × String)) : List CoolifyEnvVar :=
  envVars.map (fun p =>
    { key := p.1
      value := p.2
      is_preview := false
      is_literal := true
      is_multiline := p.2.toList.contains '\n'
      is_shown_once := false })

/-! ## Data model (reconciler.ts lines 5-36, manifest/coolify interface) -/

/-- `action` vocabulary of `ReconcileResourceResult`. -/
inductive ResourceAction where
  | created | updated | unchanged | failed | pruned
deriving DecidableEq, Repr

/-- `ReconcileResourceResult` (reconciler.ts lines 8-14). -/
structure ReconcileResourceResult where
  name : String
  action : ResourceAction
  uuid : Option String := none
  deploymentUuid : Option String := none
  error : Option String := none
deriving DecidableEq, Repr

/-- `ReconcileResult` (reconciler.ts lines 19-26). -/
structure ReconcileResult where
  success : Bool
  resources : List ReconcileResourceResult
  totalCreated : Nat
  totalUpdated : Nat
  totalFailed : Nat
  totalPruned : Nat
deriving DecidableEq, Repr

/-- Resource specification from the manifest; only the fields the
reconciler itself reads are modelled (`name`, `envSecretName`); the
remaining declarative fields are only forwarded opaquely into
create/update payloads. -/
structure Resource where
  name : String
  envSecretName : String
deriving DecidableEq, Repr

/-- Manifest fields read by the reconciler. -/
structure Manifest where
  projectId : String
  environmentName : String
  serverId : Option String
  destinationId : String
  resources : List Resource
deriving DecidableEq, Repr

/-- `ReconcilerOptions` (reconciler.ts lines 31-36); `envSecrets` is the
`Record<string,string>` read only via `envSecrets[resource.envSecretName]`,
modelled as a lookup function. -/
structure ReconcilerOptions where
  manifest : Manifest
  dockerTag : String
  envSecrets : String → Option String
  serverId : Option String

/-- Remote environment record returned by `findEnvironmentByName`
(spec §6: id, uuid, name). -/
structure Environment where
  id : Int
  uuid : String
  name : String
deriving DecidableEq, Repr

/-- Remote application record (spec §6: name, uuid, environment id). -/
structure App where
  name : String
  uuid : String
  environment_id : Int
deriving DecidableEq, Repr

/-- Remote environment-variable entry as returned by
`listEnvironmentVariables` (spec §6: key, value, uuid). -/
structure RemoteEnvVar where
  key : String
  value : String
  uuid : String
deriving DecidableEq, Repr

/-- Modelled from the spec: payload of `CoolifyClient.buildUpdateOptions`
(the client source file is not part of this snapshot); the reconciler
treats it as an opaque value built from the resource and the docker tag. -/
structure UpdateOptions where
  resource : Resource
  dockerTag : String
deriving DecidableEq, Repr

/-- Modelled from the spec: payload of `CoolifyClient.buildCreateOptions`
(the client source file is not part of this snapshot); the reconciler
treats it as an opaque value built from the arguments of the call at
reconciler.ts lines 380-388. -/
structure CreateOptions where
  resource : Resource
  projectId : String
  serverId : String
  environmentName : String
  environmentUuid : String
  destinationId : String
  dockerTag : String
deriving DecidableEq, Repr

/-- `CoolifyClient.buildUpdateOptions` as an opaque payload constructor. -/
def buildUpdateOptions (resource : Resource) (dockerTag : String) : UpdateOptions :=
  { resource := resource, dockerTag := dockerTag }

/-- `CoolifyClient.buildCreateOptions` as an opaque payload constructor. -/
def buildCreateOptions (resource : Resource) (projectId serverId environmentName environmentUuid destinationId dockerTag : String) : CreateOptions :=
  { resource := resource, projectId := projectId, serverId := serverId
    environmentName := environmentName, environmentUuid := environmentUuid
    destinationId := destinationId, dockerTag := dockerTag }

/-! ## The remote client as a state-passing oracle

`Res σ α` is the outcome of one remote call: `ok a s` (the promise
resolved with `a`, remote/instrumentation state now `s`) or `err msg s`
(the promise rejected with an `Error` whose message is `msg`).  A
`CoolifyClient σ` assigns such an outcome to every call in every state;
the reconciler is proved against arbitrary clients of this shape. -/

inductive Res (σ : Type) (α : Type) where
  | ok (a : α) (s : σ)
  | err (msg : String) (s : σ)
deriving DecidableEq, Repr

/-- The remote API client contract (spec §6), state-passing. -/
structure CoolifyClient (σ : Type) where
  findEnvironmentByName : String → String → σ → Res σ (Option Environment)
  findApplicationByName : String → Int → σ → Res σ (Option App)
  listApplications : σ → Res σ (List App)
  createDockerImageApplication : CreateOptions → σ → Res σ App
  updateApplication : String → UpdateOptions → σ → Res σ Unit
  deleteApplication : String → σ → Res σ Unit
  listEnvironmentVariables : String → σ → Res σ (List RemoteEnvVar)
  updateEnvironmentVariables : String → List CoolifyEnvVar → σ → Res σ Unit
  deleteEnvironmentVariable : String → String → σ → Res σ Unit
  deployApplication : String → σ → Res σ (Option String)
  waitForDeployment : String → σ → Res σ Unit

/-! ## Environment-variable sub-reconciliation (reconciler.ts lines 277-299) -/

/-- Failed per-resource record as built in the catch blocks
(reconciler.ts lines 209-213 and 412-416). -/
def failedRes (name msg : String) : ReconcileResourceResult :=
  { name := name, action := .failed, error := some msg }

/-- `varsToDelete` of reconciler.ts lines 282-286: current entries whose
key is not in the desired key set. -/
def varsToDelete (currentEnvVars : List RemoteEnvVar) (desiredEnvVars : List CoolifyEnvVar) : List RemoteEnvVar :=
  currentEnvVars.filter (fun e => !(desiredEnvVars.any (fun d => d.key = e.key)))

/-- The `for (const envVar of varsToDelete)` loop of reconciler.ts
lines 290-292; a rejected delete propagates. -/
def deleteVarsLoop (c : CoolifyClient σ) (appUuid : String) : List RemoteEnvVar → σ → Res σ Unit
  | [], s => .ok () s
  | v :: rest, s =>
    match c.deleteEnvironmentVariable appUuid v.uuid s with
    | .ok _ s1 => deleteVarsLoop c appUuid rest s1
    | .err e s1 => .err e s1

/-- `Reconciler.reconcileEnvironmentVariables` (reconciler.ts
lines 277-299). -/
def reconcileEnvironmentVariables (c : CoolifyClient σ) (appUuid : String) (desiredEnvVars : List CoolifyEnvVar) (s : σ) : Res σ Unit :=
  match c.listEnvironmentVariables appUuid s with
  | .err e s1 => .err e s1
  | .ok currentEnvVars s1 =>
    match deleteVarsLoop c appUuid (varsToDelete currentEnvVars desiredEnvVars) s1 with
    | .err e s2 => .err e s2
    | .ok _ s2 =>
      if desiredEnvVars.length > 0 then
        c.updateEnvironmentVariables appUuid desiredEnvVars s2
      else .ok () s2

/-! ## Per-resource reconciliation (reconciler.ts lines 339-418) -/

/-- `Reconciler.reconcileResource` (reconciler.ts lines 339-418).  The
application lookup happens before the `try` block, so its rejection
propagates (`Res.err`); every rejection inside the `try` block is caught
and converted into a `failed` record (`Res.ok (failedRes ..)`). -/
def reconcileResource (c : CoolifyClient σ) (opts : ReconcilerOptions) (resource : Resource) (serverId environmentUuid : String) (environmentId : Int) (envVars : List CoolifyEnvVar) (s : σ) : Res σ ReconcileResourceResult :=
  match c.findApplicationByName resource.name environmentId s with
  | .err e s1 => .err e s1
  | .ok (some existingApp) s1 =>
    match c.updateApplication existingApp.uuid (buildUpdateOptions resource opts.dockerTag) s1 with
    | .err e s2 => .ok (failedRes resource.name e) s2
    | .ok _ s2 =>
      match reconcileEnvironmentVariables c existingApp.uuid envVars s2 with
      | .err e s3 => .ok (failedRes resource.name e) s3
      | .ok _ s3 =>
        match c.deployApplication existingApp.uuid s3 with
        | .err e s4 => .ok (failedRes resource.name e) s4
        | .ok deploymentUuid s4 =>
          .ok { name := resource.name, action := .updated
                uuid := some existingApp.uuid
                deploymentUuid := deploymentUuid } s4
  | .ok none s1 =>
    match c.createDockerImageApplication
        (buildCreateOptions resource opts.manifest.projectId serverId
          opts.manifest.environmentName environmentUuid
          opts.manifest.destinationId opts.dockerTag) s1 with
    | .err e s2 => .ok (failedRes resource.name e) s2
    | .ok newApp s2 =>
      match (if envVars.length > 0 then c.updateEnvironmentVariables newApp.uuid envVars s2 else .ok () s2) with
      | .err e s3 => .ok (failedRes resource.name e) s3
      | .ok _ s3 =>
        match c.deployApplication newApp.uuid s3 with
        | .err e s4 => .ok (failedRes resource.name e) s4
        | .ok deploymentUuid s4 =>
          .ok { name := resource.name, action := .created
                uuid := some newApp.uuid
                deploymentUuid := deploymentUuid } s4

/-! ## The per-resource loop (reconciler.ts lines 177-216) -/

/-- Desired wire-format variables for one resource (reconciler.ts
lines 180-194): `envSecrets[resource.envSecretName]` with the JS
truthiness test on the content (`undefined` and `""` both yield no
variables). -/
def envVarsFor (envSecrets : String → Option String) (resource : Resource) : List CoolifyEnvVar :=
  match envSecrets resource.envSecretName with
  | some content =>
    if content.length > 0 then envVarsToCoolifyFormat (parseEnvFile content) else []
  | none => []

/-- The `for (const resource of manifest.resources)` loop
(reconciler.ts lines 177-216), returning the accumulated result records
and the `totalCreated`, `totalUpdated`, `totalFailed` counters.  The
loop itself never throws: a rejection of the pre-`try` lookup inside
`reconcileResource` is caught by the loop's own `catch`. -/
def processResources (c : CoolifyClient σ) (opts : ReconcilerOptions) (environment : Environment) (serverId : String) :
    List Resource → σ → List ReconcileResourceResult × Nat × Nat × Nat × σ
  | [], s => ([], 0, 0, 0, s)
  | resource :: rest, s =>
    match reconcileResource c opts resource serverId environment.uuid environment.id (envVarsFor opts.envSecrets resource) s with
    | .ok result s1 =>
      let r := processResources c opts environment serverId rest s1
      (result :: r.1,
        (if result.action = .created then r.2.1 + 1 else r.2.1),
        (if result.action = .updated then r.2.2.1 + 1 else r.2.2.1),
        (if result.action = .failed then r.2.2.2.1 + 1 else r.2.2.2.1),
        r.2.2.2.2)
    | .err e s1 =>
      let r := processResources c opts environment serverId rest s1
      (failedRes resource.name e :: r.1, r.2.1, r.2.2.1, r.2.2.2.1 + 1, r.2.2.2.2)

/-! ## Pruning pass (reconciler.ts lines 304-334) -/

/-- The `for (const app of appsToDelete)` loop (reconciler.ts
lines 322-330); a rejected delete propagates out of the whole pass. -/
def deleteAppsLoop (c : CoolifyClient σ) : List App → σ → Res σ (List ReconcileResourceResult)
  | [], s => .ok [] s
  | app :: rest, s =>
    match c.deleteApplication app.uuid s with
    | .err e s1 => .err e s1
    | .ok _ s1 =>
      match deleteAppsLoop c rest s1 with
      | .err e s2 => .err e s2
      | .ok entries s2 =>
        .ok ({ name := app.name, action := .pruned, uuid := some app.uuid } :: entries) s2

/-- `appsToDelete` of reconciler.ts lines 313-318: applications of the
target environment whose name is not in the manifest's name set. -/
def appsToDelete (allApps : List App) (environmentId : Int) (manifestResources : List Resource) : List App :=
  (allApps.filter (fun app => app.environment_id = environmentId)).filter
    (fun app => !(manifestResources.any (fun r => r.name = app.name)))

/-- `Reconciler.pruneResources` (reconciler.ts lines 304-334). -/
def pruneResources (c : CoolifyClient σ) (environmentId : Int) (manifestResources : List Resource) (s : σ) : Res σ (List ReconcileResourceResult) :=
  match c.listApplications s with
  | .err e s1 => .err e s1
  | .ok allApps s1 =>
    deleteAppsLoop c (appsToDelete allApps environmentId manifestResources) s1

/-! ## Deployment-wait phase (reconciler.ts lines 224-258)

`Promise.allSettled` starts all waits and collects every settlement;
no rejection aborts the others.  The waits are modelled in the array
order of `deployments` (the only sequentialisation faithful to the
collected outcome array); each outcome is `none` (fulfilled) or
`some msg` (rejected with message `msg`). -/

/-- One collected `(name, uuid)` pair (reconciler.ts line 224). -/
structure DeploymentRef where
  name : String
  uuid : String
deriving DecidableEq, Repr

/-- `deployments` of reconciler.ts line 224. -/
def collectDeployments (results : List ReconcileResourceResult) : List DeploymentRef :=
  (results.filter (fun r => r.deploymentUuid.isSome)).map
    (fun r => { name := r.name, uuid := r.deploymentUuid.getD "" })

/-- `Promise.allSettled(deployments.map(d => waitForDeployment(d.uuid)))`:
one settlement per deployment, in array order. -/
def runWaits (c : CoolifyClient σ) : List DeploymentRef → σ → List (Option String) × σ
  | [], s => ([], s)
  | d :: rest, s =>
    match c.waitForDeployment d.uuid s with
    | .ok _ s1 =>
      let r := runWaits c rest s1
      (none :: r.1, r.2)
    | .err e s1 =>
      let r := runWaits c rest s1
      (some e :: r.1, r.2)

/-- `results.find((r) => r.deploymentUuid === deployment.uuid)` followed by
the in-place rewrite to `failed` (reconciler.ts lines 240-244): only the
first matching entry is mutated. -/
def setFailedByDeployment (results : List ReconcileResourceResult) (u msg : String) : List ReconcileResourceResult :=
  match results with
  | [] => []
  | r :: rest =>
    if r.deploymentUuid = some u then
      { r with action := .failed, error := some msg } :: rest
    else r :: setFailedByDeployment rest u msg

/-- The `deploymentResults.forEach` loop (reconciler.ts lines 231-251),
folded over the zipped `(deployment, outcome)` pairs; returns the
rewritten result list and `deploymentFailures`. -/
def applyWaitOutcomes : List ReconcileResourceResult → List (DeploymentRef × Option String) → List ReconcileResourceResult × Nat
  | results, [] => (results, 0)
  | results, (d, some msg) :: rest =>
    let r := applyWaitOutcomes (setFailedByDeployment results d.uuid msg) rest
    (r.1, r.2 + 1)
  | results, (_, none) :: rest => applyWaitOutcomes results rest

/-- The whole deployment-wait phase (reconciler.ts lines 224-258): no
remote call at all when no result carries a deployment identifier. -/
def waitPhase (c : CoolifyClient σ) (results : List ReconcileResourceResult) (s : σ) : List ReconcileResourceResult × Nat × σ :=
  if (collectDeployments results).length > 0 then
    match runWaits c (collectDeployments results) s with
    | (outs, s1) =>
      match applyWaitOutcomes results ((collectDeployments results).zip outs) with
      | (results2, failures) => (results2, failures, s1)
  else (results, 0, s)

/-- The rewrite applied to a result entry for a rejected wait
(reconciler.ts lines 242-243). -/
def rewriteFailed (m : String) (r : ReconcileResourceResult) : ReconcileResourceResult :=
  { r with action := .failed, error := some m }

/-- Outcome associated with uuid `u` by the first matching
`(deployment, outcome)` pair. -/
def lookupOutcome (P : List (DeploymentRef × Option String)) (u : String) : Option String :=
  match P.find? (fun p => p.1.uuid = u) with
  | some p => p.2
  | none => none

/-- Entry-wise effect of the whole `forEach` pass over the settled
outcomes. -/
def applyOutcomesMap (P : List (DeploymentRef × Option String))
    (r : ReconcileResourceResult) : ReconcileResourceResult :=
  match r.deploymentUuid with
  | none => r
  | some u =>
    match lookupOutcome P u with
    | some m => rewriteFailed m r
    | none => r

/-! ## Top-level reconcile (reconciler.ts lines 114-271) -/

/-- `Reconciler.reconcile` (reconciler.ts lines 114-271).  `Res.err`
models a rejection of the returned promise: the environment lookup and
the pruning pass run outside every `try`, so their rejections
propagate. -/
def reconcile (c : CoolifyClient σ) (opts : ReconcilerOptions) (s : σ) : Res σ ReconcileResult :=
  match c.findEnvironmentByName opts.manifest.projectId opts.manifest.environmentName s with
  | .err e s1 => .err e s1
  | .ok none s1 =>
    .ok { success := false
          resources := opts.manifest.resources.map (fun r =>
            { name := r.name, action := .failed
              error := some "Target environment does not exist" })
          totalCreated := 0, totalUpdated := 0
          totalFailed := opts.manifest.resources.length, totalPruned := 0 } s1
  | .ok (some environment) s1 =>
    match opts.serverId.orElse (fun _ => opts.manifest.serverId) with
    | none =>
      .ok { success := false, resources := []
            totalCreated := 0, totalUpdated := 0
            totalFailed := opts.manifest.resources.length, totalPruned := 0 } s1
    | some serverId =>
      if serverId.length = 0 then
        -- `if (!serverId)` is also taken for the empty string
        .ok { success := false, resources := []
              totalCreated := 0, totalUpdated := 0
              totalFailed := opts.manifest.resources.length, totalPruned := 0 } s1
      else
        match processResources c opts environment serverId opts.manifest.resources s1 with
        | (results, totalCreated, totalUpdated, totalFailed, s2) =>
          match pruneResources c environment.id opts.manifest.resources s2 with
          | .err e s3 => .err e s3
          | .ok prunedResults s3 =>
            match waitPhase c (results ++ prunedResults) s3 with
            | (results2, deploymentFailures, s4) =>
              .ok { success := (totalFailed + deploymentFailures) == 0
                    resources := results2
                    totalCreated := totalCreated
                    totalUpdated := totalUpdated
                    totalFailed := totalFailed + deploymentFailures
                    totalPruned := prunedResults.length } s4

/-! ## A remote environment-variable store (for the key-set invariant) -/

/-- State of the remote store of environment variables of one
application, together with call counters for the delete and batch-update
operations. -/
structure EnvStoreState where
  store : List RemoteEnvVar
  deleteCalls : Nat
  updateCalls : Nat
deriving DecidableEq, Repr

/-- Modelled from the spec: create-or-overwrite semantics of one entry of
the batch `updateEnvironmentVariables` call (§4.3/§6; the client source
file is not part of this snapshot).  An existing key has its value
overwritten in place; a new key is appended with a remote-assigned
uuid. -/
def upsertOne (st : List RemoteEnvVar) (d : CoolifyEnvVar) : List RemoteEnvVar :=
  if st.any (fun e => e.key = d.key) then
    st.map (fun e => if e.key = d.key then { e with value := d.value } else e)
  else st ++ [⟨d.key, d.value, "uuid-" ++ d.key⟩]

/-- Batch create-or-overwrite of all desired entries. -/
def upsertAll (st : List RemoteEnvVar) (desired : List CoolifyEnvVar) : List RemoteEnvVar :=
  desired.foldl upsertOne st

/-- Modelled from the spec: the remote API client contract of §6 acting on
the environment-variable store of one application (the client source file
is not part of this snapshot).  `listEnvironmentVariables` returns the
store, `deleteEnvironmentVariable` removes the entry with the given uuid,
`updateEnvironmentVariables` upserts by key; both mutators count their
calls.  The remaining operations do not touch this store. -/
def envStoreClient : CoolifyClient EnvStoreState :=
  { findEnvironmentByName := fun _ _ s => .ok none s
    findApplicationByName := fun _ _ s => .ok none s
    listApplications := fun s => .ok [] s
    createDockerImageApplication := fun o s => .ok ⟨o.resource.name, "u", 1⟩ s
    updateApplication := fun _ _ s => .ok () s
    deleteApplication := fun _ s => .ok () s
    listEnvironmentVariables := fun _ s => .ok s.store s
    updateEnvironmentVariables := fun _ desired s =>
      .ok () ⟨upsertAll s.store desired, s.deleteCalls, s.updateCalls + 1⟩
    deleteEnvironmentVariable := fun _ u s =>
      .ok () ⟨s.store.filter (fun e => e.uuid ≠ u), s.deleteCalls + 1, s.updateCalls⟩
    deployApplication := fun _ s => .ok none s
    waitForDeployment := fun _ s => .ok () s }

/-! ## Concrete instrumented clients and inputs (used in witnesses and
counterexamples)

`Nat`-state clients count every remote call, so a returned state pins down
exactly how many calls were issued. -/

/-- A resource named `n` whose secret entry is `n ++ "-env"`. -/
def sampleResource (n : String) : Resource :=
  { name := n, envSecretName := n ++ "-env" }

/-- Secret mapping with no entries. -/
def noSecrets : String → Option String := fun _ => none

/-- Two-resource manifest. -/
def sampleManifest : Manifest :=
  { projectId := "proj", environmentName := "production", serverId := some "srv"
    destinationId := "dest", resources := [sampleResource "app1", sampleResource "app2"] }

/-- Options over `sampleManifest`. -/
def sampleOpts : ReconcilerOptions :=
  { manifest := sampleManifest, dockerTag := "v1", envSecrets := noSecrets
    serverId := none }

/-- Manifest with an empty resource list. -/
def emptyManifest : Manifest :=
  { projectId := "proj", environmentName := "production", serverId := some "srv"
    destinationId := "dest", resources := [] }

/-- Options over `emptyManifest`. -/
def emptyOpts : ReconcilerOptions :=
  { manifest := emptyManifest, dockerTag := "v1", envSecrets := noSecrets
    serverId := none }

/-- Call-counting client whose environment lookup reports the environment
as absent. -/
def countingAbsentEnvClient : CoolifyClient Nat :=
  { findEnvironmentByName := fun _ _ s => .ok none (s + 1)
    findApplicationByName := fun _ _ s => .ok none (s + 1)
    listApplications := fun s => .ok [] (s + 1)
    createDockerImageApplication := fun o s => .ok ⟨o.resource.name, "u", 1⟩ (s + 1)
    updateApplication := fun _ _ s => .ok () (s + 1)
    deleteApplication := fun _ s => .ok () (s + 1)
    listEnvironmentVariables := fun _ s => .ok [] (s + 1)
    updateEnvironmentVariables := fun _ _ s => .ok () (s + 1)
    deleteEnvironmentVariable := fun _ _ s => .ok () (s + 1)
    deployApplication := fun _ s => .ok none (s + 1)
    waitForDeployment := fun _ s => .ok () (s + 1) }

/-- Call-counting client on which every operation succeeds: the
environment exists, no application exists yet, creation succeeds, every
deployment trigger returns an identifier and every wait resolves. -/
def countingOkClient : CoolifyClient Nat :=
  { findEnvironmentByName := fun _ _ s => .ok (some ⟨1, "env-uuid", "production"⟩) (s + 1)
    findApplicationByName := fun _ _ s => .ok none (s + 1)
    listApplications := fun s => .ok [] (s + 1)
    createDockerImageApplication := fun o s => .ok ⟨o.resource.name, "uuid-" ++ o.resource.name, 1⟩ (s + 1)
    updateApplication := fun _ _ s => .ok () (s + 1)
    deleteApplication := fun _ s => .ok () (s + 1)
    listEnvironmentVariables := fun _ s => .ok [] (s + 1)
    updateEnvironmentVariables := fun _ _ s => .ok () (s + 1)
    deleteEnvironmentVariable := fun _ _ s => .ok () (s + 1)
    deployApplication := fun u s => .ok (some ("dep-" ++ u)) (s + 1)
    waitForDeployment := fun _ s => .ok () (s + 1) }

/-- The result returned by `reconcile` on `countingAbsentEnvClient` and an
empty resource list. -/
def envAbsentEmptyResult : ReconcileResult :=
  { success := false, resources := [], totalCreated := 0, totalUpdated := 0
    totalFailed := 0, totalPruned := 0 }

/-- Call-counting client whose environment lookup rejects. -/
def throwingEnvClient : CoolifyClient Nat :=
  { countingOkClient with
    findEnvironmentByName := fun _ _ s => .err "env lookup failed" (s + 1) }

/-- Call-counting client on which every application exists and every
update call rejects. -/
def failingUpdateClient : CoolifyClient Nat :=
  { countingOkClient with
    findApplicationByName := fun n _ s => .ok (some ⟨n, "uuid-" ++ n, 1⟩) (s + 1)
    updateApplication := fun _ _ s => .err "update failed" (s + 1) }

/-- The environment record served by `countingOkClient`. -/
def sampleEnv : Environment := ⟨1, "env-uuid", "production"⟩

/-- Remote application `A` in environment 1 (desired by the manifest). -/
def appA : App := ⟨"A", "uuid-a", 1⟩

/-- Remote application `B` in environment 1 (not desired). -/
def appB : App := ⟨"B", "uuid-b", 1⟩

/-- Remote application `C` in environment 2, not desired, sharing its
name with no manifest resource but in a different environment. -/
def appC : App := ⟨"B", "uuid-c", 2⟩

/-- Client whose state is the log of deleted environment-variable uuids
for `listEnvironmentVariables`/`deleteEnvironmentVariable`; serving two
pre-existing remote variables. -/
def loggingEnvVarClient : CoolifyClient (List String) :=
  { findEnvironmentByName := fun _ _ s => .ok (some ⟨1, "env-uuid", "production"⟩) s
    findApplicationByName := fun _ _ s => .ok none s
    listApplications := fun s => .ok [] s
    createDockerImageApplication := fun o s => .ok ⟨o.resource.name, "u", 1⟩ s
    updateApplication := fun _ _ s => .ok () s
    deleteApplication := fun _ s => .ok () s
    listEnvironmentVariables := fun _ s => .ok [⟨"OLD1", "v1", "u1"⟩, ⟨"OLD2", "v2", "u2"⟩] s
    updateEnvironmentVariables := fun _ _ s => .ok () s
    deleteEnvironmentVariable := fun _ u s => .ok () (s ++ [u])
    deployApplication := fun _ s => .ok none s
    waitForDeployment := fun _ s => .ok () s }

/-- Wait outcome oracle: `dep-2` rejects, everything else resolves. -/
def waitOutcomeFn : String → Option String :=
  fun u => if u = "dep-2" then some "deploy timeout" else none

/-- Call-counting client whose deployment waits settle according to
`waitOutcomeFn`. -/
def waitTestClient : CoolifyClient Nat :=
  { countingOkClient with
    waitForDeployment := fun u s =>
      match waitOutcomeFn u with
      | none => .ok () (s + 1)
      | some m => .err m (s + 1) }

/-- Result list entering the deployment-wait phase: two deployments
(`dep-1`, `dep-2`) and one entry without a deployment identifier. -/
def waitResults : List ReconcileResourceResult :=
  [{ name := "app1", action := .created, uuid := some "u1", deploymentUuid := some "dep-1" },
   { name := "app2", action := .created, uuid := some "u2", deploymentUuid := some "dep-2" },
   { name := "gone", action := .pruned, uuid := some "u3" }]

/-- Client whose state is the log of deleted application uuids. -/
def loggingPruneClient : CoolifyClient (List String) :=
  { findEnvironmentByName := fun _ _ s => .ok (some ⟨1, "env-uuid", "production"⟩) s
    findApplicationByName := fun _ _ s => .ok none s
    listApplications := fun s => .ok [appA, appB, appC] s
    createDockerImageApplication := fun o s => .ok ⟨o.resource.name, "u", 1⟩ s
    updateApplication := fun _ _ s => .ok () s
    deleteApplication := fun u s => .ok () (s ++ [u])
    listEnvironmentVariables := fun _ s => .ok [] s
    updateEnvironmentVariables := fun _ _ s => .ok () s
    deleteEnvironmentVariable := fun _ _ s => .ok () s
    deployApplication := fun _ s => .ok none s
    waitForDeployment := fun _ s => .ok () s }

/-! ## Parser lemmas -/

/-- A string matching the key regex `^[A-Za-z_][A-Za-z0-9_]*$`. -/
def validKey (k : String) : Bool :=
  match k.toList with
  | [] => false
  | c :: cs => isKeyStartChar c && cs.all isKeyTailChar

theorem not_ws_of_keyStart (c : Char) (h : isKeyStartChar c = true) :
    c.isWhitespace = false := by
  rcases eq_or_ne c ' ' with rfl | h1
  · simp [isKeyStartChar, Char.isAlpha, Char.isUpper, Char.isLower] at h
  rcases eq_or_ne c '\t' with rfl | h2
  · simp [isKeyStartChar, Char.isAlpha, Char.isUpper, Char.isLower] at h
  rcases eq_or_ne c '\r' with rfl | h3
  · simp [isKeyStartChar, Char.isAlpha, Char.isUpper, Char.isLower] at h
  rcases eq_or_ne c '\n' with rfl | h4
  · simp [isKeyStartChar, Char.isAlpha, Char.isUpper, Char.isLower] at h
  simp [Char.isWhitespace, h1, h2, h3, h4]

theorem splitNL_of_no_newline (l : List Char)
    (h : ∀ c ∈ l, c ≠ '\n' ∧ c ≠ '\r') : splitNL l = [l] := by
  induction l with
  | nil => rfl
  | cons c rest ih =>
    have hc := h c (List.mem_cons_self c rest)
    have hrest : splitNL rest = [rest] :=
      ih (fun x hx => h x (List.mem_cons_of_mem c hx))
    rw [splitNL.eq_def]
    split
    · rename_i heq
      simp at heq
    · rename_i rest' heq
      rw [List.cons.injEq] at heq
      exact absurd heq.1 hc.2
    · rename_i rest' heq
      rw [List.cons.injEq] at heq
      exact absurd heq.1 hc.1
    · rename_i hne1 hne2 c' rest' heq
      rw [List.cons.injEq] at heq
      obtain ⟨rfl, rfl⟩ := heq
      rw [hrest]

theorem dropWhile_eq_self_of_head (p : Char → Bool) (m : List Char)
    (h : ∀ c, m.head? = some c → p c = false) : m.dropWhile p = m := by
  cases m with
  | nil => rfl
  | cons b t => exact List.dropWhile_cons_of_neg (by simp [h b rfl])

theorem trimChars_eq_self (l : List Char)
    (h1 : ∀ c, l.head? = some c → c.isWhitespace = false)
    (h2 : ∀ c, l.getLast? = some c → c.isWhitespace = false) :
    trimChars l = l := by
  unfold trimChars
  rw [dropWhile_eq_self_of_head _ _ h1]
  rw [dropWhile_eq_self_of_head _ _
    (fun c hc => h2 c (by rwa [List.head?_reverse] at hc))]
  exact List.reverse_reverse l

theorem takeWhile_all_append (p : Char → Bool) (l1 : List Char) (x : Char) (l2 : List Char)
    (h : ∀ y ∈ l1, p y = true) (hx : p x = false) :
    (l1 ++ x :: l2).takeWhile p = l1 ∧ (l1 ++ x :: l2).dropWhile p = x :: l2 := by
  induction l1 with
  | nil => simp [List.takeWhile_cons, List.dropWhile_cons, hx]
  | cons a t ih =>
    have ha := h a (List.mem_cons_self a t)
    have := ih (fun y hy => h y (List.mem_cons_of_mem a hy))
    simp [List.takeWhile_cons, List.dropWhile_cons, ha, this.1, this.2]

/-- C10: lone-quote value parses to the empty string. -/
theorem parseLine_lone_quote (c : Char) (cs : List Char) (q : Char)
    (hc : isKeyStartChar c = true) (hcs : ∀ x ∈ cs, isKeyTailChar x = true)
    (hq : q = '"' ∨ q = '\'') :
    parseLine (c :: (cs ++ ['=', q])) = some (String.mk (c :: cs), "") := by
  have heq : (cs ++ ['=', q]) = cs ++ '=' :: [q] := by simp
  have h := takeWhile_all_append isKeyTailChar cs '=' [q] hcs (by decide)
  rw [parseLine, if_pos hc, heq, h.1, h.2]
  rcases hq with rfl | rfl <;> rfl

theorem validKey_elim (k : String) (h : validKey k = true) :
    ∃ c cs, k.toList = c :: cs ∧ isKeyStartChar c = true ∧
      ∀ x ∈ cs, isKeyTailChar x = true := by
  unfold validKey at h
  cases hkl : k.toList with
  | nil => rw [hkl] at h; exact absurd h (by simp)
  | cons c cs =>
    rw [hkl] at h
    simp only [Bool.and_eq_true, List.all_eq_true] at h
    exact ⟨c, cs, rfl, h.1, fun x hx => h.2 x hx⟩

theorem keyTail_not_newline (x : Char) (h : isKeyTailChar x = true) :
    x ≠ '\n' ∧ x ≠ '\r' := by
  constructor <;> rintro rfl <;> exact absurd h (by decide)

theorem keyTail_of_keyStart (c : Char) (h : isKeyStartChar c = true) :
    isKeyTailChar c = true := by
  simp only [isKeyStartChar, Bool.or_eq_true, decide_eq_true_eq] at h
  simp only [isKeyTailChar, Char.isAlphanum, Bool.or_eq_true, decide_eq_true_eq]
  rcases h with h | h
  · exact Or.inl (Or.inl h)
  · exact Or.inr h

theorem parseEnvFile_lone_quote_aux (k : String) (q : Char) (s : String)
    (h : validKey k = true) (hq : q = '"' ∨ q = '\'')
    (hs : s.toList = ['=', q]) :
    parseEnvFile (k ++ s) = [(k, "")] := by
  obtain ⟨c, cs, hkl, hc, hcs⟩ := validKey_elim k h
  have hline : (k ++ s).toList = c :: (cs ++ ['=', q]) := by
    show (k ++ s).data = _
    rw [String.data_append]
    show k.toList ++ s.toList = _
    rw [hkl, hs]; rfl
  have hqn : q ≠ '\n' ∧ q ≠ '\r' := by
    rcases hq with rfl | rfl <;> exact ⟨by decide, by decide⟩
  have hsplit : splitNL (k ++ s).toList = [c :: (cs ++ ['=', q])] := by
    rw [hline]
    apply splitNL_of_no_newline
    intro x hx
    rcases List.mem_cons.mp hx with rfl | hx
    · exact keyTail_not_newline x (keyTail_of_keyStart x hc)
    · rcases List.mem_append.mp hx with hx | hx
      · exact keyTail_not_newline x (hcs x hx)
      · rcases List.mem_cons.mp hx with rfl | hx
        · exact ⟨by decide, by decide⟩
        · simp only [List.mem_singleton] at hx
          subst hx; exact hqn
  have htrim : trimChars (c :: (cs ++ ['=', q])) = c :: (cs ++ ['=', q]) := by
    apply trimChars_eq_self
    · intro x hx
      simp only [List.head?_cons, Option.some.injEq] at hx
      subst hx; exact not_ws_of_keyStart _ hc
    · intro x hx
      have hl : (c :: (cs ++ ['=', q])).getLast? = some q := by
        have he : c :: (cs ++ ['=', q]) = (c :: cs ++ ['=']) ++ [q] := by simp
        rw [he, List.getLast?_concat]
      rw [hl, Option.some.injEq] at hx
      subst hx
      rcases hq with rfl | rfl <;> decide
  have hmk : String.mk (c :: cs) = k := by
    rw [← hkl]; rfl
  unfold parseEnvFile
  rw [hsplit, List.foldl_cons, List.foldl_nil]
  unfold parseEnvStep
  rw [htrim]
  have hne : (c :: (cs ++ ['=', q])) ≠ [] := by simp
  rw [if_neg hne]
  have hhash : ¬((c :: (cs ++ ['=', q])).head? = some '#') := by
    simp only [List.head?_cons, Option.some.injEq]
    rintro rfl
    exact absurd hc (by decide)
  rw [if_neg hhash, parseLine_lone_quote c cs q hc hcs hq, hmk]
  rfl

/-- C10: for every valid key `K`, `parseEnvFile` maps the line `K=` followed
by a single lone quote character (double or single) to the mapping
`K ↦ ""`: the one character serves as both opening and closing quote and is
stripped, rather than the line being skipped as unterminated. -/
theorem parseEnvFile_lone_quote_yields_empty (k : String) (h : validKey k = true) :
    parseEnvFile (k ++ "=\"") = [(k, "")] ∧ parseEnvFile (k ++ "='") = [(k, "")] :=
  ⟨parseEnvFile_lone_quote_aux k '"' "=\"" h (Or.inl rfl) (by decide),
   parseEnvFile_lone_quote_aux k '\'' "='" h (Or.inr rfl) (by decide)⟩

/-- Witness for C10 at the concrete key `KEY`. -/
theorem parseEnvFile_lone_quote_yields_empty_witness :
    validKey "KEY" = true ∧
      (parseEnvFile ("KEY" ++ "=\"") = [("KEY", "")] ∧
       parseEnvFile ("KEY" ++ "='") = [("KEY", "")]) :=
  ⟨by decide, parseEnvFile_lone_quote_yields_empty "KEY" (by decide)⟩

/-! ## Top-level reconcile: precondition branches and the success flag -/

/-- C4: if the environment lookup reports the target environment absent
(state `s1` right after that call), `reconcile` returns `success = false`
with one `failed` entry per manifest resource carrying the fixed message,
`totalFailed` equal to the resource count, all other counters zero — and
the final state is exactly `s1`, so (the client and its state type being
arbitrary) no further remote call of any kind is issued, in particular
zero application lookups. -/
theorem reconcile_env_absent {σ : Type} (c : CoolifyClient σ)
    (opts : ReconcilerOptions) (s s1 : σ)
    (h : c.findEnvironmentByName opts.manifest.projectId
          opts.manifest.environmentName s = .ok none s1) :
    reconcile c opts s = .ok
      { success := false
        resources := opts.manifest.resources.map (fun r =>
          { name := r.name, action := .failed
            error := some "Target environment does not exist" })
        totalCreated := 0, totalUpdated := 0
        totalFailed := opts.manifest.resources.length
        totalPruned := 0 } s1 := by
  unfold reconcile
  rw [h]

/-- Witness for C4 on a concrete counting client: exactly one remote call
(the environment lookup) is issued. -/
theorem reconcile_env_absent_witness :
    countingAbsentEnvClient.findEnvironmentByName sampleOpts.manifest.projectId
      sampleOpts.manifest.environmentName 0 = .ok none 1 ∧
    reconcile countingAbsentEnvClient sampleOpts 0 = .ok
      { success := false
        resources := sampleOpts.manifest.resources.map (fun r =>
          { name := r.name, action := .failed
            error := some "Target environment does not exist" })
        totalCreated := 0, totalUpdated := 0
        totalFailed := sampleOpts.manifest.resources.length
        totalPruned := 0 } 1 :=
  ⟨rfl, reconcile_env_absent countingAbsentEnvClient sampleOpts 0 1 rfl⟩

/-- C1 counterexample: with an empty resource list and an absent target
environment, `reconcile` returns `success = false` together with
`totalFailed = 0`, so `success = true ↔ totalFailed = 0` fails for this
invocation. -/
theorem success_iff_no_failures_counterexample :
    reconcile countingAbsentEnvClient emptyOpts 0 = .ok envAbsentEmptyResult 1 ∧
    ¬(envAbsentEmptyResult.success = true ↔ envAbsentEmptyResult.totalFailed = 0) :=
  ⟨rfl, by decide⟩

/-- C1 (amended): for every invocation of `reconcile` on a manifest with at
least one resource, a returned `ReconcileResult` satisfies
`success = true ↔ totalFailed = 0`.  (On an empty resource list the two
precondition-failure branches return `success = false` with
`totalFailed = 0`.) -/
theorem success_iff_no_failures {σ : Type} (c : CoolifyClient σ)
    (opts : ReconcilerOptions) (s : σ) (r : ReconcileResult) (sEnd : σ)
    (hne : opts.manifest.resources ≠ [])
    (h : reconcile c opts s = .ok r sEnd) :
    r.success = true ↔ r.totalFailed = 0 := by
  have hlen : opts.manifest.resources.length ≠ 0 := by
    simpa [List.length_eq_zero] using hne
  unfold reconcile at h
  rcases hE : c.findEnvironmentByName opts.manifest.projectId
      opts.manifest.environmentName s with ⟨env?, s1⟩ | ⟨e, s1⟩
  · rw [hE] at h
    rcases env? with _ | env
    · dsimp only at h
      rw [Res.ok.injEq] at h
      obtain ⟨rfl, rfl⟩ := h
      simp [hlen]
    · dsimp only at h
      rcases hS : opts.serverId.orElse (fun _ => opts.manifest.serverId) with _ | sid
      · rw [hS] at h
        dsimp only at h
        rw [Res.ok.injEq] at h
        obtain ⟨rfl, rfl⟩ := h
        simp [hlen]
      · rw [hS] at h
        dsimp only at h
        by_cases hz : sid.length = 0
        · rw [if_pos hz] at h
          rw [Res.ok.injEq] at h
          obtain ⟨rfl, rfl⟩ := h
          simp [hlen]
        · rw [if_neg hz] at h
          rcases hP : processResources c opts env sid opts.manifest.resources s1
            with ⟨res, cr, up, fl, s2⟩
          rw [hP] at h
          dsimp only at h
          rcases hPr : pruneResources c env.id opts.manifest.resources s2
            with ⟨pr, s3⟩ | ⟨e, s3⟩
          · rw [hPr] at h
            dsimp only at h
            rcases hW : waitPhase c (res ++ pr) s3 with ⟨res2, df, s4⟩
            rw [hW] at h
            dsimp only at h
            rw [Res.ok.injEq] at h
            obtain ⟨rfl, rfl⟩ := h
            simp
          · rw [hPr] at h
            exact absurd h (by simp)
  · rw [hE] at h
    exact absurd h (by simp)

/-- Witness for C1 on a fully succeeding two-resource run. -/
theorem success_iff_no_failures_witness :
    sampleOpts.manifest.resources ≠ [] ∧
    reconcile countingOkClient sampleOpts 0 = .ok
      { success := true
        resources := [
          { name := "app1", action := .created, uuid := some "uuid-app1"
            deploymentUuid := some "dep-uuid-app1" },
          { name := "app2", action := .created, uuid := some "uuid-app2"
            deploymentUuid := some "dep-uuid-app2" }]
        totalCreated := 2, totalUpdated := 0, totalFailed := 0
        totalPruned := 0 } 10 ∧
    ((true : Bool) = true ↔ (0 : Nat) = 0) := by
  refine ⟨by decide, by decide, ?_⟩
  have := success_iff_no_failures countingOkClient sampleOpts 0
    { success := true
      resources := [
        { name := "app1", action := .created, uuid := some "uuid-app1"
          deploymentUuid := some "dep-uuid-app1" },
        { name := "app2", action := .created, uuid := some "uuid-app2"
          deploymentUuid := some "dep-uuid-app2" }]
      totalCreated := 2, totalUpdated := 0, totalFailed := 0
      totalPruned := 0 } 10 (by decide) (by decide)
  exact this

/-! ## C2: exception propagation out of reconcile -/

/-- C2 counterexample: when the environment lookup rejects, the rejection
propagates out of `reconcile` (a `Res.err`, not a returned
`ReconcileResult`) — the lookup runs outside every `try`. -/
theorem reconcile_never_throws_counterexample :
    reconcile throwingEnvClient sampleOpts 0 = .err "env lookup failed" 1 := rfl

theorem deleteAppsLoop_total {σ : Type} (c : CoolifyClient σ)
    (hdel : ∀ u s', ∃ s'', c.deleteApplication u s' = .ok () s'')
    (apps : List App) (s : σ) :
    ∃ entries s', deleteAppsLoop c apps s = .ok entries s' := by
  induction apps generalizing s with
  | nil => exact ⟨[], s, rfl⟩
  | cons app rest ih =>
    obtain ⟨s1, hd⟩ := hdel app.uuid s
    obtain ⟨entries, s2, hrest⟩ := ih s1
    exact ⟨{ name := app.name, action := .pruned, uuid := some app.uuid } :: entries, s2,
      by unfold deleteAppsLoop; rw [hd]; dsimp only; rw [hrest]⟩

/-- C2 (amended): `reconcile` never propagates an exception provided the
environment lookup, the pruning pass's application listing and its
application deletions do not throw; rejections of every other remote call
(per-resource lookup/create/update, env-var list/delete/update, deploy
trigger, deployment wait) are converted into structured failed outcomes.
The unconditional claim is refuted by
the environment-lookup counterexample: that call and the pruning pass run
outside every `try`, so their rejections escape the top-level call. -/
theorem reconcile_total_if_env_and_prune_resolve {σ : Type} (c : CoolifyClient σ)
    (opts : ReconcilerOptions) (s : σ)
    (henv : ∀ s', ∃ v s'', c.findEnvironmentByName opts.manifest.projectId
      opts.manifest.environmentName s' = .ok v s'')
    (hlist : ∀ s', ∃ apps s'', c.listApplications s' = .ok apps s'')
    (hdel : ∀ u s', ∃ s'', c.deleteApplication u s' = .ok () s'') :
    ∃ r sEnd, reconcile c opts s = .ok r sEnd := by
  obtain ⟨v, s1, hE⟩ := henv s
  unfold reconcile
  rw [hE]
  rcases v with _ | env
  · exact ⟨_, s1, rfl⟩
  · dsimp only
    rcases opts.serverId.orElse (fun _ => opts.manifest.serverId) with _ | sid
    · exact ⟨_, s1, rfl⟩
    · dsimp only
      by_cases hz : sid.length = 0
      · rw [if_pos hz]
        exact ⟨_, s1, rfl⟩
      · rw [if_neg hz]
        rcases hP : processResources c opts env sid opts.manifest.resources s1
          with ⟨res, cr, up, fl, s2⟩
        obtain ⟨apps, s3, hL⟩ := hlist s2
        obtain ⟨entries, s4, hD⟩ :=
          deleteAppsLoop_total c hdel (appsToDelete apps env.id opts.manifest.resources) s3
        have hPr : pruneResources c env.id opts.manifest.resources s2 = .ok entries s4 := by
          unfold pruneResources
          rw [hL]
          dsimp only
          exact hD
        rw [hPr]
        dsimp only
        rcases hW : waitPhase c (res ++ entries) s4 with ⟨res2, df, s5⟩
        dsimp only
        exact ⟨_, s5, rfl⟩

/-- Witness for C2 on the fully succeeding client. -/
theorem reconcile_total_if_env_and_prune_resolve_witness :
    ∃ r sEnd, reconcile countingOkClient sampleOpts 0 = .ok r sEnd :=
  reconcile_total_if_env_and_prune_resolve countingOkClient sampleOpts 0
    (fun s' => ⟨some ⟨1, "env-uuid", "production"⟩, s' + 1, rfl⟩)
    (fun s' => ⟨[], s' + 1, rfl⟩)
    (fun _ s' => ⟨s' + 1, rfl⟩)

/-! ## C3: per-resource failure isolation -/

/-- C3: when a remote call of a resource's per-resource sequence rejects
with message `e` — either the pre-`try` application lookup
(`reconcileResource` returns `Res.err e`) or a call inside the `try`
block (`reconcileResource` returns the caught `failedRes` record, the
only way it produces a `failed` action) — the loop records exactly one
entry `{name, action := failed, error := e}` for that resource,
increments only the failure counter by one, and still processes every
subsequent resource, starting from the state `s1` left by the failure. -/
theorem per_resource_failure_isolated {σ : Type} (c : CoolifyClient σ)
    (opts : ReconcilerOptions) (env : Environment) (serverId : String)
    (resource : Resource) (rest : List Resource) (s s1 : σ) (e : String)
    (h : reconcileResource c opts resource serverId env.uuid env.id
          (envVarsFor opts.envSecrets resource) s = .err e s1 ∨
         reconcileResource c opts resource serverId env.uuid env.id
          (envVarsFor opts.envSecrets resource) s = .ok (failedRes resource.name e) s1) :
    processResources c opts env serverId (resource :: rest) s =
      (failedRes resource.name e :: (processResources c opts env serverId rest s1).1,
       (processResources c opts env serverId rest s1).2.1,
       (processResources c opts env serverId rest s1).2.2.1,
       (processResources c opts env serverId rest s1).2.2.2.1 + 1,
       (processResources c opts env serverId rest s1).2.2.2.2) := by
  rcases h with h | h
  · conv_lhs => rw [processResources.eq_def]
    dsimp only
    rw [h]
  · conv_lhs => rw [processResources.eq_def]
    dsimp only
    rw [h]
    rfl

/-- Witness for C3: the update call of the first resource rejects; the
first entry is the failed record, the second resource is still
processed. -/
theorem per_resource_failure_isolated_witness :
    (reconcileResource failingUpdateClient sampleOpts (sampleResource "app1") "srv"
        sampleEnv.uuid sampleEnv.id
        (envVarsFor sampleOpts.envSecrets (sampleResource "app1")) 0 =
      .ok (failedRes (sampleResource "app1").name "update failed") 2) ∧
    processResources failingUpdateClient sampleOpts sampleEnv "srv"
        [sampleResource "app1", sampleResource "app2"] 0 =
      (failedRes (sampleResource "app1").name "update failed" ::
        (processResources failingUpdateClient sampleOpts sampleEnv "srv"
          [sampleResource "app2"] 2).1,
       (processResources failingUpdateClient sampleOpts sampleEnv "srv"
          [sampleResource "app2"] 2).2.1,
       (processResources failingUpdateClient sampleOpts sampleEnv "srv"
          [sampleResource "app2"] 2).2.2.1,
       (processResources failingUpdateClient sampleOpts sampleEnv "srv"
          [sampleResource "app2"] 2).2.2.2.1 + 1,
       (processResources failingUpdateClient sampleOpts sampleEnv "srv"
          [sampleResource "app2"] 2).2.2.2.2) :=
  ⟨by decide,
   per_resource_failure_isolated failingUpdateClient sampleOpts sampleEnv "srv"
     (sampleResource "app1") [sampleResource "app2"] 0 2 "update failed"
     (Or.inr (by decide))⟩

/-! ## C6: the pruning pass -/

theorem deleteAppsLoop_spec {σ : Type} (c : CoolifyClient σ) (fdel : String → σ → σ)
    (hdel : ∀ u s', c.deleteApplication u s' = .ok () (fdel u s')) :
    ∀ (apps : List App) (s : σ),
      deleteAppsLoop c apps s = .ok
        (apps.map (fun a => { name := a.name, action := .pruned, uuid := some a.uuid }))
        (apps.foldl (fun st a => fdel a.uuid st) s) := by
  intro apps
  induction apps with
  | nil => intro s; rfl
  | cons app rest ih =>
    intro s
    unfold deleteAppsLoop
    rw [hdel app.uuid s]
    dsimp only
    rw [ih (fdel app.uuid s)]
    rfl

/-- C6: the pruning pass deletes exactly the applications of the target
environment whose name is absent from the manifest's resource-name set:
the returned entries are one `pruned` record (name + remote uuid) per such
application, the final state is the fold of the delete effect `fdel` over
exactly these applications in listing order (so, the state type and
client being arbitrary, no other application is ever deleted — in
particular none belonging to another environment, same-named or not),
and membership in the deleted set is characterised by the last
conjunct. -/
theorem pruning_deletes_exactly_orphans {σ : Type} (c : CoolifyClient σ)
    (envId : Int) (mres : List Resource) (s s1 : σ) (allApps : List App)
    (fdel : String → σ → σ)
    (hlist : c.listApplications s = .ok allApps s1)
    (hdel : ∀ u s', c.deleteApplication u s' = .ok () (fdel u s')) :
    pruneResources c envId mres s = .ok
        ((appsToDelete allApps envId mres).map (fun a =>
          { name := a.name, action := .pruned, uuid := some a.uuid }))
        ((appsToDelete allApps envId mres).foldl (fun st a => fdel a.uuid st) s1) ∧
    ∀ a : App, a ∈ appsToDelete allApps envId mres ↔
      (a ∈ allApps ∧ a.environment_id = envId ∧ ∀ r ∈ mres, r.name ≠ a.name) := by
  constructor
  · unfold pruneResources
    rw [hlist]
    dsimp only
    exact deleteAppsLoop_spec c fdel hdel _ s1
  · intro a
    simp only [appsToDelete, List.mem_filter, Bool.not_eq_true', List.any_eq_false,
      decide_eq_true_eq, and_assoc]

/-- Witness for C6 on the spec's `A`/`B`/`C` example with a deletion-log
client: only `B` (same environment, not desired) is deleted; `C`, which
carries the same name in another environment, is untouched. -/
theorem pruning_deletes_exactly_orphans_witness :
    (pruneResources loggingPruneClient 1 [sampleResource "A"] [] = .ok
        ((appsToDelete [appA, appB, appC] 1 [sampleResource "A"]).map (fun a =>
          { name := a.name, action := .pruned, uuid := some a.uuid }))
        ((appsToDelete [appA, appB, appC] 1 [sampleResource "A"]).foldl
          (fun st a => st ++ [a.uuid]) []) ∧
     ∀ a : App, a ∈ appsToDelete [appA, appB, appC] 1 [sampleResource "A"] ↔
      (a ∈ [appA, appB, appC] ∧ a.environment_id = 1 ∧
        ∀ r ∈ [sampleResource "A"], r.name ≠ a.name)) ∧
    appsToDelete [appA, appB, appC] 1 [sampleResource "A"] = [appB] ∧
    pruneResources loggingPruneClient 1 [sampleResource "A"] [] = .ok
      [{ name := "B", action := .pruned, uuid := some "uuid-b" }] ["uuid-b"] :=
  ⟨pruning_deletes_exactly_orphans loggingPruneClient 1 [sampleResource "A"] [] []
     [appA, appB, appC] (fun u st => st ++ [u]) rfl (fun _ _ => rfl),
   by decide, by decide⟩

/-! ## C9: missing secret clears every remote environment variable -/

theorem deleteVarsLoop_spec {σ : Type} (c : CoolifyClient σ) (appUuid : String)
    (fdel : String → σ → σ)
    (hdel : ∀ u s', c.deleteEnvironmentVariable appUuid u s' = .ok () (fdel u s')) :
    ∀ (vars : List RemoteEnvVar) (s : σ),
      deleteVarsLoop c appUuid vars s = .ok ()
        (vars.foldl (fun st v => fdel v.uuid st) s) := by
  intro vars
  induction vars with
  | nil => intro s; rfl
  | cons v rest ih =>
    intro s
    unfold deleteVarsLoop
    rw [hdel v.uuid s]
    dsimp only
    rw [ih (fdel v.uuid s)]
    rfl

/-- C9: a resource whose secret entry is missing or maps to the empty
string gets an empty desired variable set (JS truthiness), and the
sub-reconciliation invoked for an existing application then issues one
delete per currently-set remote variable — the final state is the
delete-effect fold over the entire current list, exactly as for an
explicit request to clear everything, and no update call is issued (the
state is touched only through `fdel`). -/
theorem missing_secret_clears_env_vars {σ : Type} (c : CoolifyClient σ)
    (envSecrets : String → Option String) (r : Resource)
    (h : envSecrets r.envSecretName = none ∨ envSecrets r.envSecretName = some "")
    (appUuid : String) (s s1 : σ) (current : List RemoteEnvVar)
    (fdel : String → σ → σ)
    (hlist : c.listEnvironmentVariables appUuid s = .ok current s1)
    (hdel : ∀ u s', c.deleteEnvironmentVariable appUuid u s' = .ok () (fdel u s')) :
    envVarsFor envSecrets r = [] ∧
    reconcileEnvironmentVariables c appUuid (envVarsFor envSecrets r) s =
      .ok () (current.foldl (fun st e => fdel e.uuid st) s1) := by
  have hempty : envVarsFor envSecrets r = [] := by
    unfold envVarsFor
    rcases h with h | h <;> rw [h]
    rfl
  refine ⟨hempty, ?_⟩
  rw [hempty]
  unfold reconcileEnvironmentVariables
  rw [hlist]
  dsimp only
  have hvd : varsToDelete current [] = current := by
    unfold varsToDelete
    simp
  rw [hvd, deleteVarsLoop_spec c appUuid fdel hdel current s1]
  rfl

/-- Witness for C9: no secret entry for the resource; both pre-existing
remote variables are deleted. -/
theorem missing_secret_clears_env_vars_witness :
    (envVarsFor noSecrets (sampleResource "app1") = [] ∧
     reconcileEnvironmentVariables loggingEnvVarClient "app-uuid"
        (envVarsFor noSecrets (sampleResource "app1")) [] =
      .ok ()
        (([⟨"OLD1", "v1", "u1"⟩, ⟨"OLD2", "v2", "u2"⟩] : List RemoteEnvVar).foldl
          (fun st e => st ++ [e.uuid]) [])) ∧
    reconcileEnvironmentVariables loggingEnvVarClient "app-uuid" [] [] =
      .ok () ["u1", "u2"] :=
  ⟨missing_secret_clears_env_vars loggingEnvVarClient noSecrets (sampleResource "app1")
     (Or.inl rfl) "app-uuid" [] [] [⟨"OLD1", "v1", "u1"⟩, ⟨"OLD2", "v2", "u2"⟩]
     (fun u st => st ++ [u]) rfl (fun _ _ => rfl),
   by decide⟩

/-! ## C5: the key-set invariant of the env-var sub-reconciliation -/

theorem deleteVarsLoop_envStore (appUuid : String) :
    ∀ (vs : List RemoteEnvVar) (s : EnvStoreState),
      deleteVarsLoop envStoreClient appUuid vs s = .ok ()
        ⟨vs.foldl (fun st v => st.filter (fun e => e.uuid ≠ v.uuid)) s.store,
         s.deleteCalls + vs.length, s.updateCalls⟩ := by
  intro vs
  induction vs with
  | nil => intro s; rfl
  | cons v rest ih =>
    intro s
    unfold deleteVarsLoop
    have hc : envStoreClient.deleteEnvironmentVariable appUuid v.uuid s = .ok ()
        ⟨s.store.filter (fun e => e.uuid ≠ v.uuid), s.deleteCalls + 1, s.updateCalls⟩ := rfl
    rw [hc]
    dsimp only
    rw [ih ⟨s.store.filter (fun e => e.uuid ≠ v.uuid), s.deleteCalls + 1, s.updateCalls⟩]
    have harith : s.deleteCalls + 1 + rest.length = s.deleteCalls + (rest.length + 1) := by
      omega
    dsimp only
    rw [harith]
    rfl

theorem mem_store_after_deletes (vs : List RemoteEnvVar) (st : List RemoteEnvVar)
    (e : RemoteEnvVar) :
    e ∈ vs.foldl (fun acc v => acc.filter (fun x => x.uuid ≠ v.uuid)) st ↔
      e ∈ st ∧ ∀ v ∈ vs, e.uuid ≠ v.uuid := by
  induction vs generalizing st with
  | nil => simp
  | cons v rest ih =>
    rw [List.foldl_cons, ih]
    simp only [List.mem_filter, decide_eq_true_eq, List.forall_mem_cons]
    tauto

theorem mem_keys_upsertOne (st : List RemoteEnvVar) (d : CoolifyEnvVar) (k : String) :
    (∃ e ∈ upsertOne st d, e.key = k) ↔ (∃ e ∈ st, e.key = k) ∨ d.key = k := by
  unfold upsertOne
  have hkey : ∀ x : RemoteEnvVar,
      ((if x.key = d.key then { x with value := d.value } else x) : RemoteEnvVar).key = x.key := by
    intro x; split <;> rfl
  split
  · rename_i hany
    obtain ⟨x0, hx0, hx0d⟩ : ∃ x ∈ st, x.key = d.key := by
      simpa [List.any_eq_true] using hany
    constructor
    · rintro ⟨e, he, hk⟩
      obtain ⟨x, hx, rfl⟩ := List.mem_map.mp he
      exact Or.inl ⟨x, hx, (hkey x).symm.trans hk⟩
    · rintro (⟨x, hx, hk⟩ | hk)
      · exact ⟨_, List.mem_map_of_mem _ hx, (hkey x).trans hk⟩
      · exact ⟨_, List.mem_map_of_mem _ hx0, (hkey x0).trans (hx0d.trans hk)⟩
  · constructor
    · rintro ⟨e, he, hk⟩
      rcases List.mem_append.mp he with he | he
      · exact Or.inl ⟨e, he, hk⟩
      · obtain rfl := List.mem_singleton.mp he
        exact Or.inr hk
    · rintro (⟨e, he, hk⟩ | hk)
      · exact ⟨e, List.mem_append.mpr (Or.inl he), hk⟩
      · exact ⟨_, List.mem_append.mpr (Or.inr (List.mem_singleton.mpr rfl)), hk⟩

theorem mem_keys_upsertAll (ds : List CoolifyEnvVar) (st : List RemoteEnvVar) (k : String) :
    (∃ e ∈ upsertAll st ds, e.key = k) ↔
      (∃ e ∈ st, e.key = k) ∨ ∃ d ∈ ds, d.key = k := by
  induction ds generalizing st with
  | nil => simp [upsertAll]
  | cons d rest ih =>
    have hstep : upsertAll st (d :: rest) = upsertAll (upsertOne st d) rest := rfl
    have hcons : (∃ x ∈ d :: rest, x.key = k) ↔ d.key = k ∨ ∃ x ∈ rest, x.key = k := by
      simp only [List.mem_cons]
      constructor
      · rintro ⟨x, rfl | hx, hk⟩
        · exact Or.inl hk
        · exact Or.inr ⟨x, hx, hk⟩
      · rintro (hk | ⟨x, hx, hk⟩)
        · exact ⟨d, Or.inl rfl, hk⟩
        · exact ⟨x, Or.inr hx, hk⟩
    rw [hstep, ih (upsertOne st d), mem_keys_upsertOne, hcons, or_assoc]

/-- C5 (spec-modelled remote store): running the env-var
sub-reconciliation against the store semantics of the client contract
succeeds, leaves a store whose key set equals exactly the desired key set
(no leftover keys, no missing keys), issues exactly one delete call per
current entry whose key is absent from the desired set, and issues
exactly one batch update call when the desired set is non-empty and none
when it is empty. -/
theorem env_reconciliation_exact_key_set (appUuid : String)
    (desired : List CoolifyEnvVar) (s0 : EnvStoreState) :
    ∃ s1 : EnvStoreState,
      reconcileEnvironmentVariables envStoreClient appUuid desired s0 = .ok () s1 ∧
      (∀ k : String, (∃ e ∈ s1.store, e.key = k) ↔ ∃ d ∈ desired, d.key = k) ∧
      s1.deleteCalls = s0.deleteCalls + (varsToDelete s0.store desired).length ∧
      s1.updateCalls = s0.updateCalls + (if desired.length > 0 then 1 else 0) := by
  have hmemvd : ∀ e : RemoteEnvVar, e ∈ varsToDelete s0.store desired ↔
      e ∈ s0.store ∧ ∀ d ∈ desired, d.key ≠ e.key := by
    intro e
    simp [varsToDelete, List.mem_filter, List.any_eq_false]
  unfold reconcileEnvironmentVariables
  have hlist : envStoreClient.listEnvironmentVariables appUuid s0 = .ok s0.store s0 := rfl
  rw [hlist]
  dsimp only
  rw [deleteVarsLoop_envStore appUuid (varsToDelete s0.store desired) s0]
  dsimp only
  have hdelmem : ∀ e : RemoteEnvVar,
      e ∈ (varsToDelete s0.store desired).foldl
        (fun st v => st.filter (fun x => x.uuid ≠ v.uuid)) s0.store →
      ∃ d ∈ desired, d.key = e.key := by
    intro e he
    rw [mem_store_after_deletes] at he
    by_contra hno
    push_neg at hno
    have hvd : e ∈ varsToDelete s0.store desired :=
      (hmemvd e).mpr ⟨he.1, fun d hd => hno d hd⟩
    exact he.2 e hvd rfl
  by_cases hlen : desired.length > 0
  · rw [if_pos hlen]
    refine ⟨_, rfl, ?_, rfl, by rw [if_pos hlen]⟩
    intro k
    rw [mem_keys_upsertAll]
    constructor
    · rintro (⟨e, he, rfl⟩ | hdes)
      · exact hdelmem e he
      · exact hdes
    · exact fun hdes => Or.inr hdes
  · rw [if_neg hlen]
    have hdesnil : desired = [] := List.length_eq_zero.mp (by omega)
    subst hdesnil
    refine ⟨_, rfl, ?_, rfl, by simp⟩
    intro k
    dsimp only
    constructor
    · rintro ⟨e, he, rfl⟩
      obtain ⟨d, hd, _⟩ := hdelmem e he
      exact absurd hd (List.not_mem_nil d)
    · rintro ⟨d, hd, _⟩
      exact absurd hd (List.not_mem_nil d)

/-! ## C7: the deployment-wait phase -/

theorem collectDeployments_map_uuid (results : List ReconcileResourceResult) :
    (collectDeployments results).map (fun d => d.uuid) =
      results.filterMap (fun r => r.deploymentUuid) := by
  induction results with
  | nil => rfl
  | cons r rest ih =>
    unfold collectDeployments at *
    cases hd : r.deploymentUuid with
    | none =>
      rw [List.filterMap_cons_none hd, ← ih, List.filter_cons_of_neg]
      simp [hd]
    | some u =>
      rw [List.filterMap_cons_some hd, List.filter_cons_of_pos, List.map_cons, ← ih]
      · simp [hd, DeploymentRef.uuid]
      · simp [hd]

theorem runWaits_spec {σ : Type} (c : CoolifyClient σ)
    (w : String → Option String) (fw : String → σ → σ)
    (hwait : ∀ u s', c.waitForDeployment u s' =
      match w u with
      | none => .ok () (fw u s')
      | some m => .err m (fw u s')) :
    ∀ (ds : List DeploymentRef) (s : σ),
      runWaits c ds s =
        (ds.map (fun d => w d.uuid), ds.foldl (fun st d => fw d.uuid st) s) := by
  intro ds
  induction ds with
  | nil => intro s; rfl
  | cons d rest ih =>
    intro s
    unfold runWaits
    rw [hwait d.uuid s, List.map_cons, List.foldl_cons]
    cases hw : w d.uuid with
    | none =>
      dsimp only
      rw [ih (fw d.uuid s)]
    | some m =>
      dsimp only
      rw [ih (fw d.uuid s)]

theorem mem_filterMap_duuid (results : List ReconcileResourceResult) (u : String) :
    u ∈ results.filterMap (fun r => r.deploymentUuid) ↔
      ∃ r ∈ results, r.deploymentUuid = some u := by
  simp [List.mem_filterMap]

theorem rewrite_map_id_of_not_mem (results : List ReconcileResourceResult)
    (u : String) (f : ReconcileResourceResult → ReconcileResourceResult)
    (h : u ∉ results.filterMap (fun r => r.deploymentUuid)) :
    results.map (fun r => if r.deploymentUuid = some u then f r else r) = results := by
  induction results with
  | nil => rfl
  | cons r rest ih =>
    have h1 : ¬(r.deploymentUuid = some u) := by
      intro hc
      exact h ((mem_filterMap_duuid (r :: rest) u).mpr
        ⟨r, List.mem_cons_self r rest, hc⟩)
    have h2 : u ∉ rest.filterMap (fun r => r.deploymentUuid) := by
      intro hc
      obtain ⟨x, hx, hxu⟩ := (mem_filterMap_duuid rest u).mp hc
      exact h ((mem_filterMap_duuid (r :: rest) u).mpr
        ⟨x, List.mem_cons_of_mem r hx, hxu⟩)
    rw [List.map_cons, if_neg h1, ih h2]

theorem setFailedByDeployment_eq_map (results : List ReconcileResourceResult)
    (u : String) (m : String)
    (hnd : (results.filterMap (fun r => r.deploymentUuid)).Nodup) :
    setFailedByDeployment results u m =
      results.map (fun r => if r.deploymentUuid = some u then rewriteFailed m r else r) := by
  induction results with
  | nil => rfl
  | cons r rest ih =>
    unfold setFailedByDeployment
    by_cases hr : r.deploymentUuid = some u
    · rw [if_pos hr, List.map_cons, if_pos hr]
      have hnotin : u ∉ rest.filterMap (fun r => r.deploymentUuid) := by
        rw [List.filterMap_cons_some hr] at hnd
        exact (List.nodup_cons.mp hnd).1
      rw [rewrite_map_id_of_not_mem rest u _ hnotin]
      rfl
    · rw [if_neg hr, List.map_cons, if_neg hr]
      have hndrest : (rest.filterMap (fun r => r.deploymentUuid)).Nodup := by
        cases hd : r.deploymentUuid with
        | none => rw [List.filterMap_cons_none hd] at hnd; exact hnd
        | some u' => rw [List.filterMap_cons_some hd] at hnd
                     exact (List.nodup_cons.mp hnd).2
      rw [ih hndrest]

theorem duuid_rewrite_preserved (u m : String) (r : ReconcileResourceResult) :
    ((if r.deploymentUuid = some u then rewriteFailed m r else r) :
      ReconcileResourceResult).deploymentUuid = r.deploymentUuid := by
  split <;> rfl

theorem filterMap_after_rewrite (results : List ReconcileResourceResult) (u m : String) :
    (results.map (fun r => if r.deploymentUuid = some u then rewriteFailed m r else r)).filterMap
        (fun r => r.deploymentUuid) =
      results.filterMap (fun r => r.deploymentUuid) := by
  rw [List.filterMap_map]
  have hf : ((fun r : ReconcileResourceResult => r.deploymentUuid) ∘
      (fun r => if r.deploymentUuid = some u then rewriteFailed m r else r)) =
      fun r : ReconcileResourceResult => r.deploymentUuid := by
    funext r
    exact duuid_rewrite_preserved u m r
  rw [hf]

theorem applyOutcomesMap_nil (r : ReconcileResourceResult) :
    applyOutcomesMap [] r = r := by
  unfold applyOutcomesMap lookupOutcome
  cases r.deploymentUuid <;> rfl

theorem lookupOutcome_cons_of_ne (p : DeploymentRef × Option String)
    (P : List (DeploymentRef × Option String)) (u : String) (h : ¬(p.1.uuid = u)) :
    lookupOutcome (p :: P) u = lookupOutcome P u := by
  unfold lookupOutcome
  rw [List.find?_cons_of_neg _ (by simpa using h)]

theorem lookupOutcome_eq_none (P : List (DeploymentRef × Option String)) (u : String)
    (h : u ∉ P.map (fun p => p.1.uuid)) : lookupOutcome P u = none := by
  unfold lookupOutcome
  have : P.find? (fun p => p.1.uuid = u) = none := by
    rw [List.find?_eq_none]
    intro p hp
    simp only [decide_eq_true_eq]
    intro hc
    exact h (List.mem_map.mpr ⟨p, hp, hc⟩)
  rw [this]

theorem applyOutcomesMap_of_none (P : List (DeploymentRef × Option String))
    (r : ReconcileResourceResult) (h : r.deploymentUuid = none) :
    applyOutcomesMap P r = r := by
  unfold applyOutcomesMap
  rw [h]

theorem applyOutcomesMap_of_some (P : List (DeploymentRef × Option String))
    (r : ReconcileResourceResult) (u : String) (h : r.deploymentUuid = some u) :
    applyOutcomesMap P r =
      match lookupOutcome P u with
      | some m => rewriteFailed m r
      | none => r := by
  unfold applyOutcomesMap
  rw [h]

theorem applyOutcomesMap_cons_none (d : DeploymentRef)
    (P : List (DeploymentRef × Option String))
    (hu : d.uuid ∉ P.map (fun p => p.1.uuid)) (r : ReconcileResourceResult) :
    applyOutcomesMap ((d, none) :: P) r = applyOutcomesMap P r := by
  cases hr : r.deploymentUuid with
  | none => rw [applyOutcomesMap_of_none _ _ hr, applyOutcomesMap_of_none _ _ hr]
  | some u =>
    rw [applyOutcomesMap_of_some _ _ _ hr, applyOutcomesMap_of_some _ _ _ hr]
    by_cases huu : d.uuid = u
    · subst huu
      have h1 : lookupOutcome ((d, none) :: P) d.uuid = none := by
        unfold lookupOutcome
        rw [List.find?_cons_of_pos _ (by simp)]
      rw [h1, lookupOutcome_eq_none P d.uuid hu]
    · rw [lookupOutcome_cons_of_ne (d, none) P u huu]

theorem applyOutcomesMap_cons_some (d : DeploymentRef) (m : String)
    (P : List (DeploymentRef × Option String))
    (hu : d.uuid ∉ P.map (fun p => p.1.uuid)) (r : ReconcileResourceResult) :
    applyOutcomesMap P
        (if r.deploymentUuid = some d.uuid then rewriteFailed m r else r) =
      applyOutcomesMap ((d, some m) :: P) r := by
  cases hd : r.deploymentUuid with
  | none =>
    rw [if_neg (by simp), applyOutcomesMap_of_none _ _ hd, applyOutcomesMap_of_none _ _ hd]
  | some u =>
    by_cases huu : u = d.uuid
    · subst huu
      rw [if_pos rfl]
      have hduu : (rewriteFailed m r).deploymentUuid = some d.uuid := hd
      rw [applyOutcomesMap_of_some P _ d.uuid hduu, lookupOutcome_eq_none P d.uuid hu,
        applyOutcomesMap_of_some _ _ _ hd]
      have h1 : lookupOutcome ((d, some m) :: P) d.uuid = some m := by
        unfold lookupOutcome
        rw [List.find?_cons_of_pos _ (by simp)]
      rw [h1]
    · rw [if_neg (by simpa using huu), applyOutcomesMap_of_some _ _ _ hd,
        applyOutcomesMap_of_some _ _ _ hd,
        lookupOutcome_cons_of_ne (d, some m) P u (fun hc => huu hc.symm)]

theorem applyWaitOutcomes_spec (P : List (DeploymentRef × Option String)) :
    ∀ R : List ReconcileResourceResult,
      (R.filterMap (fun r => r.deploymentUuid)).Nodup →
      (P.map (fun p => p.1.uuid)).Nodup →
      applyWaitOutcomes R P =
        (R.map (applyOutcomesMap P), P.countP (fun p => p.2.isSome)) := by
  induction P with
  | nil =>
    intro R _ _
    unfold applyWaitOutcomes
    have : R.map (applyOutcomesMap []) = R := by
      have h1 : applyOutcomesMap [] = id := funext applyOutcomesMap_nil
      rw [h1, List.map_id]
    rw [this, List.countP_nil]
  | cons p P' ih =>
    intro R hndR hndP
    obtain ⟨d, o⟩ := p
    have hhead : d.uuid ∉ P'.map (fun p => p.1.uuid) := by
      rw [List.map_cons, List.nodup_cons] at hndP
      exact hndP.1
    have htail : (P'.map (fun p => p.1.uuid)).Nodup := by
      rw [List.map_cons, List.nodup_cons] at hndP
      exact hndP.2
    cases o with
    | none =>
      show applyWaitOutcomes R ((d, none) :: P') = _
      unfold applyWaitOutcomes
      rw [ih R hndR htail]
      have hmap : R.map (applyOutcomesMap P') = R.map (applyOutcomesMap ((d, none) :: P')) := by
        apply List.map_congr_left
        intro r _
        exact (applyOutcomesMap_cons_none d P' hhead r).symm
      rw [hmap, List.countP_cons]
      rfl
    | some m =>
      show applyWaitOutcomes R ((d, some m) :: P') = _
      unfold applyWaitOutcomes
      rw [setFailedByDeployment_eq_map R d.uuid m hndR]
      have hndR' : ((R.map (fun r => if r.deploymentUuid = some d.uuid then rewriteFailed m r else r)).filterMap
          (fun r => r.deploymentUuid)).Nodup := by
        rw [filterMap_after_rewrite]
        exact hndR
      rw [ih _ hndR' htail, List.map_map]
      have hmap : R.map ((applyOutcomesMap P') ∘
          (fun r => if r.deploymentUuid = some d.uuid then rewriteFailed m r else r)) =
          R.map (applyOutcomesMap ((d, some m) :: P')) := by
        apply List.map_congr_left
        intro r _
        exact applyOutcomesMap_cons_some d m P' hhead r
      rw [hmap, List.countP_cons]
      simp

theorem zip_map_self {α β : Type} (l : List α) (f : α → β) :
    l.zip (l.map f) = l.map (fun a => (a, f a)) := by
  induction l with
  | nil => rfl
  | cons a t ih =>
    rw [List.map_cons, List.zip_cons_cons, ih, List.map_cons]

theorem lookupOutcome_pairs (ds : List DeploymentRef) (w : String → Option String)
    (u : String) (hu : u ∈ ds.map (fun d => d.uuid)) :
    lookupOutcome (ds.map (fun d => (d, w d.uuid))) u = w u := by
  induction ds with
  | nil => simp at hu
  | cons d rest ih =>
    rw [List.map_cons]
    by_cases hd : d.uuid = u
    · unfold lookupOutcome
      rw [List.find?_cons_of_pos _ (by simpa using hd)]
      dsimp only
      rw [hd]
    · rw [lookupOutcome_cons_of_ne _ _ u (by simpa using hd)]
      apply ih
      rcases List.mem_cons.mp (by simpa using hu : u ∈ d.uuid :: rest.map (fun d => d.uuid))
        with h | h
      · exact absurd h.symm hd
      · exact h

theorem duuid_none_of_collect_nil (results : List ReconcileResourceResult)
    (h : collectDeployments results = []) :
    ∀ r ∈ results, r.deploymentUuid = none := by
  intro r hr
  cases hd : r.deploymentUuid with
  | none => rfl
  | some u =>
    have hmem : ({ name := r.name, uuid := r.deploymentUuid.getD "" } : DeploymentRef) ∈
        collectDeployments results := by
      unfold collectDeployments
      exact List.mem_map_of_mem _ (List.mem_filter.mpr ⟨hr, by rw [hd]; rfl⟩)
    rw [h] at hmem
    exact absurd hmem (List.not_mem_nil _)

/-- C7: the deployment-wait phase, for a client whose wait outcomes are
described by `w` (`none` = fulfilled, `some m` = rejected with message
`m`) and whose per-wait state effect is `fw`, and for a result list whose
deployment identifiers are distinct (each concurrent wait owns its one
entry, spec §5): a wait call is issued for exactly the identifiers of the
entries carrying one (the state is the `fw`-fold over exactly that list,
so none is issued when no entry carries an identifier); every wait
settles independently; each rejected wait rewrites exactly its own entry
to `failed` with the rejection message; each fulfilled wait leaves its
entry unchanged; and the failure count returned (added to `totalFailed`
by `reconcile`) is exactly the number of rejected waits. -/
theorem deployment_wait_phase_spec {σ : Type} (c : CoolifyClient σ)
    (results : List ReconcileResourceResult) (s : σ)
    (w : String → Option String) (fw : String → σ → σ)
    (hwait : ∀ u s', c.waitForDeployment u s' =
      match w u with
      | none => .ok () (fw u s')
      | some m => .err m (fw u s'))
    (hnd : (results.filterMap (fun r => r.deploymentUuid)).Nodup) :
    waitPhase c results s =
      (results.map (fun r =>
        match r.deploymentUuid with
        | none => r
        | some u =>
          match w u with
          | some m => rewriteFailed m r
          | none => r),
       (results.filterMap (fun r => r.deploymentUuid)).countP (fun u => (w u).isSome),
       (results.filterMap (fun r => r.deploymentUuid)).foldl (fun st u => fw u st) s) := by
  unfold waitPhase
  by_cases hlen : (collectDeployments results).length > 0
  · rw [if_pos hlen, runWaits_spec c w fw hwait (collectDeployments results) s]
    dsimp only
    have hndP : (((collectDeployments results).map (fun d => (d, w d.uuid))).map
        (fun p => p.1.uuid)).Nodup := by
      rw [List.map_map]
      have hcomp : ((fun p : DeploymentRef × Option String => p.1.uuid) ∘
          (fun d => (d, w d.uuid))) = fun d : DeploymentRef => d.uuid := rfl
      rw [hcomp, collectDeployments_map_uuid]
      exact hnd
    rw [zip_map_self, applyWaitOutcomes_spec _ results hnd hndP]
    dsimp only
    have hA : results.map (applyOutcomesMap
        ((collectDeployments results).map (fun d => (d, w d.uuid)))) =
        results.map (fun r =>
          match r.deploymentUuid with
          | none => r
          | some u =>
            match w u with
            | some m => rewriteFailed m r
            | none => r) := by
      apply List.map_congr_left
      intro r hr
      cases hd : r.deploymentUuid with
      | none =>
        rw [applyOutcomesMap_of_none _ _ hd]
      | some u =>
        rw [applyOutcomesMap_of_some _ _ _ hd]
        have humem : u ∈ (collectDeployments results).map (fun d => d.uuid) := by
          rw [collectDeployments_map_uuid]
          exact (mem_filterMap_duuid results u).mpr ⟨r, hr, hd⟩
        rw [lookupOutcome_pairs _ w u humem]
    have hB : ((collectDeployments results).map (fun d => (d, w d.uuid))).countP
        (fun p => p.2.isSome) =
        (results.filterMap (fun r => r.deploymentUuid)).countP
          (fun u => (w u).isSome) := by
      rw [← collectDeployments_map_uuid, List.countP_map, List.countP_map]
      rfl
    have hC : (collectDeployments results).foldl (fun st d => fw d.uuid st) s =
        (results.filterMap (fun r => r.deploymentUuid)).foldl
          (fun st u => fw u st) s := by
      rw [← collectDeployments_map_uuid, List.foldl_map]
    rw [hA, hB, hC]
  · rw [if_neg hlen]
    have hnil : collectDeployments results = [] := by
      have hz : (collectDeployments results).length = 0 := by omega
      exact List.length_eq_zero.mp hz
    have hnone := duuid_none_of_collect_nil results hnil
    have hfm : results.filterMap (fun r => r.deploymentUuid) = [] := by
      rw [← collectDeployments_map_uuid, hnil]
      rfl
    rw [hfm]
    have hmap : results.map (fun r =>
        match r.deploymentUuid with
        | none => r
        | some u =>
          match w u with
          | some m => rewriteFailed m r
          | none => r) = results := by
      have hpt : ∀ r ∈ results, (fun r : ReconcileResourceResult =>
          match r.deploymentUuid with
          | none => r
          | some u =>
            match w u with
            | some m => rewriteFailed m r
            | none => r) r = id r := by
        intro r hr
        dsimp only
        rw [hnone r hr]
        rfl
      rw [List.map_congr_left hpt, List.map_id]
    rw [hmap]
    rfl

/-- Witness for C7: of two deployments, `dep-2` rejects; only its entry
is rewritten to `failed`, the fulfilled one and the identifier-free entry
are untouched, one failure is counted, two wait calls are issued. -/
theorem deployment_wait_phase_spec_witness :
    ((waitResults.filterMap (fun r => r.deploymentUuid)).Nodup ∧
     waitPhase waitTestClient waitResults 0 =
      (waitResults.map (fun r =>
        match r.deploymentUuid with
        | none => r
        | some u =>
          match waitOutcomeFn u with
          | some m => rewriteFailed m r
          | none => r),
       (waitResults.filterMap (fun r => r.deploymentUuid)).countP
         (fun u => (waitOutcomeFn u).isSome),
       (waitResults.filterMap (fun r => r.deploymentUuid)).foldl
         (fun st _ => st + 1) 0)) ∧
    waitPhase waitTestClient waitResults 0 =
      ([{ name := "app1", action := .created, uuid := some "u1", deploymentUuid := some "dep-1" },
        { name := "app2", action := .failed, uuid := some "u2", deploymentUuid := some "dep-2"
          error := some "deploy timeout" },
        { name := "gone", action := .pruned, uuid := some "u3" }], 1, 2) :=
  ⟨⟨by decide,
    deployment_wait_phase_spec waitTestClient waitResults 0 waitOutcomeFn
      (fun _ s => s + 1) (fun _ _ => rfl) (by decide)⟩,
   by decide⟩

/-! ## C8: parser idempotence under re-serialization -/

/-- C8 counterexample: the input `K="a "` parses to the value `"a "`,
which contains no quote character and no newline, yet serializing the
mapping back to `KEY=value` lines and re-parsing trims the trailing
space, yielding a different mapping. -/
theorem parse_reserialize_counterexample :
    (∀ p ∈ parseEnvFile "K=\"a \"",
      ¬p.2.toList.contains '"' = true ∧ ¬p.2.toList.contains '\'' = true ∧
        ¬p.2.toList.contains '\n' = true) ∧
    parseEnvFile (serializeEnv (parseEnvFile "K=\"a \"")) ≠
      parseEnvFile "K=\"a \"" := by
  decide

theorem contains_eq_false_iff (l : List Char) (a : Char) :
    l.contains a = false ↔ a ∉ l := by
  simp

theorem unquote_subset (v v' : List Char) (h : unquote v = some v') :
    ∀ x ∈ v', x ∈ v := by
  unfold unquote at h
  split at h
  · rw [Option.some.injEq] at h
    subst h
    intro x hx
    exact List.drop_subset 1 v (List.dropLast_subset _ hx)
  · split at h
    · exact absurd h (by simp)
    · rw [Option.some.injEq] at h
      subst h
      exact fun x hx => hx

theorem parseLine_props (t : List Char) (k v : String)
    (h : parseLine t = some (k, v)) :
    validKey k = true ∧ '\n' ∉ v.toList ∧ '\r' ∉ v.toList := by
  unfold parseLine at h
  split at h
  · exact absurd h (by simp)
  · rename_i c rest
    split at h
    · rename_i hc
      dsimp only at h
      split at h
      · rename_i v' heq
        split at h
        · exact absurd h (by simp)
        · rename_i hcont
          split at h
          · rename_i v'' hunq
            rw [Option.some.injEq, Prod.mk.injEq] at h
            obtain ⟨hk, hv⟩ := h
            have hcont' : v'.contains '\n' = false ∧ v'.contains '\r' = false :=
              Bool.or_eq_false_iff.mp (Bool.eq_false_iff.mpr hcont)
            refine ⟨?_, ?_, ?_⟩
            · rw [← hk]
              show (isKeyStartChar c && (rest.takeWhile isKeyTailChar).all isKeyTailChar) = true
              rw [Bool.and_eq_true]
              exact ⟨hc, List.all_eq_true.mpr (fun x hx => List.mem_takeWhile_imp hx)⟩
            · rw [← hv]
              intro hmem
              exact absurd (unquote_subset v' v'' hunq '\n' hmem)
                ((contains_eq_false_iff v' '\n').mp hcont'.1)
            · rw [← hv]
              intro hmem
              exact absurd (unquote_subset v' v'' hunq '\r' hmem)
                ((contains_eq_false_iff v' '\r').mp hcont'.2)
          · exact absurd h (by simp)
      · exact absurd h (by simp)
    · exact absurd h (by simp)

theorem insertJS_preserves (Q1 Q2 : String → Prop) (k v : String) :
    ∀ acc : List (String × String),
      (∀ p ∈ acc, Q1 p.1 ∧ Q2 p.2) → Q1 k → Q2 v →
      ∀ p ∈ insertJS acc k v, Q1 p.1 ∧ Q2 p.2 := by
  intro acc
  induction acc with
  | nil =>
    intro _ hk hv p hp
    obtain rfl := List.mem_singleton.mp hp
    exact ⟨hk, hv⟩
  | cons q rest ih =>
    intro hacc hk hv p hp
    obtain ⟨k', v'⟩ := q
    unfold insertJS at hp
    split at hp
    · rcases List.mem_cons.mp hp with rfl | hp
      · exact ⟨(hacc (k', v') (List.mem_cons_self _ _)).1, hv⟩
      · exact hacc p (List.mem_cons_of_mem _ hp)
    · rcases List.mem_cons.mp hp with rfl | hp
      · exact hacc (k', v') (List.mem_cons_self _ _)
      · exact ih (fun q hq => hacc q (List.mem_cons_of_mem _ hq)) hk hv p hp

theorem parseEnvStep_preserves (Q1 Q2 : String → Prop)
    (hline : ∀ t k v, parseLine t = some (k, v) → Q1 k ∧ Q2 v)
    (acc : List (String × String)) (line : List Char)
    (hacc : ∀ p ∈ acc, Q1 p.1 ∧ Q2 p.2) :
    ∀ p ∈ parseEnvStep acc line, Q1 p.1 ∧ Q2 p.2 := by
  intro p hp
  unfold parseEnvStep at hp
  dsimp only at hp
  split at hp
  · exact hacc p hp
  · split at hp
    · exact hacc p hp
    · split at hp
      · exact hacc p hp
      · rename_i k v hpl
        have hkv := hline _ k v hpl
        exact insertJS_preserves Q1 Q2 k v acc hacc hkv.1 hkv.2 p hp

theorem parseEnvFile_props (content : String) :
    ∀ p ∈ parseEnvFile content,
      validKey p.1 = true ∧ ('\n' ∉ p.2.toList ∧ '\r' ∉ p.2.toList) := by
  unfold parseEnvFile
  have hgen : ∀ (lines : List (List Char)) (acc : List (String × String)),
      (∀ p ∈ acc, validKey p.1 = true ∧ ('\n' ∉ p.2.toList ∧ '\r' ∉ p.2.toList)) →
      ∀ p ∈ lines.foldl parseEnvStep acc,
        validKey p.1 = true ∧ ('\n' ∉ p.2.toList ∧ '\r' ∉ p.2.toList) := by
    intro lines
    induction lines with
    | nil => intro acc hacc; exact hacc
    | cons line rest ih =>
      intro acc hacc
      rw [List.foldl_cons]
      apply ih
      apply parseEnvStep_preserves (fun k => validKey k = true)
        (fun v => '\n' ∉ v.toList ∧ '\r' ∉ v.toList) ?_ acc line hacc
      intro t k v hpl
      have := parseLine_props t k v hpl
      exact ⟨this.1, this.2.1, this.2.2⟩
  exact hgen _ [] (fun p hp => absurd hp (List.not_mem_nil p))

theorem insertJS_keys (k v : String) :
    ∀ acc : List (String × String),
      (acc.map Prod.fst).Nodup →
      ((insertJS acc k v).map Prod.fst).Nodup ∧
      ∀ x, x ∈ (insertJS acc k v).map Prod.fst ↔ x ∈ acc.map Prod.fst ∨ x = k := by
  intro acc
  induction acc with
  | nil =>
    intro _
    constructor
    · exact List.nodup_singleton k
    · intro x
      simp [insertJS]
  | cons q rest ih =>
    intro hnd
    obtain ⟨k', v'⟩ := q
    rw [List.map_cons, List.nodup_cons] at hnd
    unfold insertJS
    split
    · rename_i hk
      subst hk
      constructor
      · rw [List.map_cons, List.nodup_cons]
        exact hnd
      · intro x
        rw [List.map_cons, List.map_cons]
        constructor
        · exact fun h => Or.inl h
        · rintro (h | rfl)
          · exact h
          · exact List.mem_cons_self _ _
    · rename_i hk
      obtain ⟨ihnd, ihiff⟩ := ih hnd.2
      constructor
      · rw [List.map_cons, List.nodup_cons]
        refine ⟨?_, ihnd⟩
        intro hmem
        rcases (ihiff k').mp hmem with h | rfl
        · exact hnd.1 h
        · exact hk rfl
      · intro x
        rw [List.map_cons, List.map_cons, List.mem_cons, List.mem_cons, ihiff x,
          or_assoc]

theorem parseEnvStep_keys_nodup (acc : List (String × String)) (line : List Char)
    (hnd : (acc.map Prod.fst).Nodup) :
    ((parseEnvStep acc line).map Prod.fst).Nodup := by
  unfold parseEnvStep
  dsimp only
  split
  · exact hnd
  · split
    · exact hnd
    · split
      · exact hnd
      · rename_i k v _
        exact (insertJS_keys k v acc hnd).1

theorem parseEnvFile_keys_nodup (content : String) :
    ((parseEnvFile content).map Prod.fst).Nodup := by
  unfold parseEnvFile
  have hgen : ∀ (lines : List (List Char)) (acc : List (String × String)),
      (acc.map Prod.fst).Nodup →
      ((lines.foldl parseEnvStep acc).map Prod.fst).Nodup := by
    intro lines
    induction lines with
    | nil => intro acc hacc; exact hacc
    | cons line rest ih =>
      intro acc hacc
      rw [List.foldl_cons]
      exact ih _ (parseEnvStep_keys_nodup acc line hacc)
  exact hgen _ [] List.nodup_nil

theorem unquote_of_no_quotes (v : List Char) (h1 : '"' ∉ v) (h2 : '\'' ∉ v) :
    unquote v = some v := by
  cases v with
  | nil => rfl
  | cons x t =>
    have hx1 : x ≠ '"' := fun h => h1 (h ▸ List.mem_cons_self x t)
    have hx2 : x ≠ '\'' := fun h => h2 (h ▸ List.mem_cons_self x t)
    unfold unquote
    rw [if_neg (by simp [hx1, hx2]), if_neg (by simp [hx1, hx2])]

theorem parseEnvStep_line (acc : List (String × String)) (k v : String)
    (hk : validKey k = true)
    (hnl : '\n' ∉ v.toList) (hcr : '\r' ∉ v.toList)
    (hq1 : '"' ∉ v.toList) (hq2 : '\'' ∉ v.toList)
    (hlast : lastNotWS v.toList = true) :
    parseEnvStep acc (k.toList ++ '=' :: v.toList) = insertJS acc k v := by
  obtain ⟨c, cs, hkl, hc, hcs⟩ := validKey_elim k hk
  have hline : k.toList ++ '=' :: v.toList = c :: (cs ++ '=' :: v.toList) := by
    rw [hkl]
    rfl
  rw [hline]
  have htrim : trimChars (c :: (cs ++ '=' :: v.toList)) = c :: (cs ++ '=' :: v.toList) := by
    apply trimChars_eq_self
    · intro x hx
      rw [List.head?_cons, Option.some.injEq] at hx
      subst hx
      exact not_ws_of_keyStart _ hc
    · intro x hx
      cases hv : v.toList with
      | nil =>
        rw [hv] at hx
        have hlaste : (c :: (cs ++ ['='])).getLast? = some '=' := by
          have heq : c :: (cs ++ ['=']) = (c :: cs) ++ ['='] := by simp
          rw [heq]
          exact List.getLast?_concat _
        rw [hlaste, Option.some.injEq] at hx
        subst hx
        decide
      | cons y t =>
        have hvne : v.toList ≠ [] := by rw [hv]; simp
        have heq : c :: (cs ++ '=' :: v.toList) = ((c :: cs) ++ ['=']) ++ v.toList := by
          simp
        rw [heq, List.getLast?_append_of_ne_nil _ hvne] at hx
        unfold lastNotWS at hlast
        rw [hx] at hlast
        have hlast' : (!x.isWhitespace) = true := hlast
        simpa using hlast'
  unfold parseEnvStep
  dsimp only
  rw [htrim, if_neg (by simp)]
  have hhash : ¬((c :: (cs ++ '=' :: v.toList)).head? = some '#') := by
    rw [List.head?_cons, Option.some.injEq]
    rintro rfl
    exact absurd hc (by decide)
  rw [if_neg hhash]
  have hpl : parseLine (c :: (cs ++ '=' :: v.toList)) = some (k, v) := by
    unfold parseLine
    dsimp only
    rw [if_pos hc]
    have h := takeWhile_all_append isKeyTailChar cs '=' v.toList hcs (by decide)
    rw [h.1, h.2]
    show (if (v.toList.contains '\n' || v.toList.contains '\r') = true then none
      else
        match unquote v.toList with
        | some v' => some (String.mk (c :: cs), String.mk v')
        | none => none) = some (k, v)
    have hcontf : (v.toList.contains '\n' || v.toList.contains '\r') = false := by
      rw [(contains_eq_false_iff _ _).mpr hnl, (contains_eq_false_iff _ _).mpr hcr]
      rfl
    rw [if_neg (by rw [hcontf]; simp), unquote_of_no_quotes v.toList hq1 hq2]
    rw [← hkl]
    rfl
  rw [hpl]

theorem splitNL_append_newline (l : List Char)
    (h : ∀ c ∈ l, c ≠ '\n' ∧ c ≠ '\r') (rest : List Char) :
    splitNL (l ++ '\n' :: rest) = l :: splitNL rest := by
  induction l with
  | nil => rfl
  | cons c l' ih =>
    have hc := h c (List.mem_cons_self c l')
    have hrest := ih (fun x hx => h x (List.mem_cons_of_mem c hx))
    rw [List.cons_append, splitNL.eq_def]
    split
    · rename_i heq
      simp at heq
    · rename_i rest' heq
      rw [List.cons.injEq] at heq
      exact absurd heq.1 hc.2
    · rename_i rest' heq
      rw [List.cons.injEq] at heq
      exact absurd heq.1 hc.1
    · rename_i hne1 hne2 c' rest' heq
      rw [List.cons.injEq] at heq
      obtain ⟨rfl, rfl⟩ := heq
      rw [hrest]

theorem splitNL_joinLines (lines : List (List Char)) (hne : lines ≠ [])
    (h : ∀ l ∈ lines, ∀ c ∈ l, c ≠ '\n' ∧ c ≠ '\r') :
    splitNL (joinLines lines) = lines := by
  induction lines with
  | nil => exact absurd rfl hne
  | cons l ls ih =>
    cases ls with
    | nil =>
      show splitNL (joinLines [l]) = [l]
      exact splitNL_of_no_newline l (h l (List.mem_cons_self l []))
    | cons l2 ls' =>
      show splitNL (l ++ '\n' :: joinLines (l2 :: ls')) = l :: (l2 :: ls')
      rw [splitNL_append_newline l (h l (List.mem_cons_self l _)) (joinLines (l2 :: ls')),
        ih (by simp) (fun l' hl' => h l' (List.mem_cons_of_mem l hl'))]

theorem insertJS_append (k v : String) :
    ∀ acc : List (String × String), k ∉ acc.map Prod.fst →
      insertJS acc k v = acc ++ [(k, v)] := by
  intro acc
  induction acc with
  | nil => intro _; rfl
  | cons q rest ih =>
    intro h
    obtain ⟨k', v'⟩ := q
    rw [List.map_cons, List.mem_cons, not_or] at h
    unfold insertJS
    rw [if_neg (fun hc => h.1 hc.symm), ih h.2]
    rfl

theorem foldl_insertJS_append (m : List (String × String)) :
    ∀ acc : List (String × String),
      (∀ x ∈ m.map Prod.fst, x ∉ acc.map Prod.fst) →
      (m.map Prod.fst).Nodup →
      m.foldl (fun acc p => insertJS acc p.1 p.2) acc = acc ++ m := by
  induction m with
  | nil => intro acc _ _; exact (List.append_nil acc).symm
  | cons p m' ih =>
    intro acc hdisj hnd
    rw [List.map_cons, List.nodup_cons] at hnd
    rw [List.foldl_cons]
    have hnot : p.1 ∉ acc.map Prod.fst :=
      hdisj p.1 (by rw [List.map_cons]; exact List.mem_cons_self _ _)
    have hins : insertJS acc p.1 p.2 = acc ++ [p] := by
      rw [insertJS_append p.1 p.2 acc hnot]
    rw [hins, ih (acc ++ [p]) ?_ hnd.2]
    · rw [List.append_assoc]
      rfl
    · intro x hx
      rw [List.map_append, List.mem_append, not_or]
      constructor
      · exact hdisj x (by rw [List.map_cons]; exact List.mem_cons_of_mem _ hx)
      · intro hc
        rcases List.mem_singleton.mp (by simpa using hc : x ∈ [p.1]) with rfl
        exact hnd.1 hx

theorem foldl_congr_mem {α β : Type} (l : List β) (f g : α → β → α) (b : α)
    (h : ∀ acc x, x ∈ l → f acc x = g acc x) : l.foldl f b = l.foldl g b := by
  induction l generalizing b with
  | nil => rfl
  | cons x t ih =>
    rw [List.foldl_cons, List.foldl_cons, h b x (List.mem_cons_self x t)]
    exact ih _ (fun acc y hy => h acc y (List.mem_cons_of_mem x hy))

theorem parse_serializeEnv (m : List (String × String))
    (hprops : ∀ p ∈ m, validKey p.1 = true ∧ ('\n' ∉ p.2.toList ∧ '\r' ∉ p.2.toList))
    (hnd : (m.map Prod.fst).Nodup)
    (hq : ∀ p ∈ m, '"' ∉ p.2.toList ∧ '\'' ∉ p.2.toList ∧
      lastNotWS p.2.toList = true) :
    parseEnvFile (serializeEnv m) = m := by
  cases m with
  | nil => rfl
  | cons p0 m' =>
    unfold parseEnvFile serializeEnv
    have htl : (String.mk (joinLines ((p0 :: m').map
        (fun p => p.1.toList ++ '=' :: p.2.toList)))).toList =
        joinLines ((p0 :: m').map (fun p => p.1.toList ++ '=' :: p.2.toList)) := rfl
    rw [htl]
    have hchars : ∀ l ∈ (p0 :: m').map (fun p => p.1.toList ++ '=' :: p.2.toList),
        ∀ c ∈ l, c ≠ '\n' ∧ c ≠ '\r' := by
      intro l hl c hc
      obtain ⟨p, hp, rfl⟩ := List.mem_map.mp hl
      rcases List.mem_append.mp hc with hck | hcv
      · obtain ⟨c0, cs0, hkl, hc0, hcs0⟩ := validKey_elim p.1 (hprops p hp).1
        rw [hkl] at hck
        rcases List.mem_cons.mp hck with rfl | hck
        · exact keyTail_not_newline c (keyTail_of_keyStart c hc0)
        · exact keyTail_not_newline c (hcs0 c hck)
      · rcases List.mem_cons.mp hcv with rfl | hcv
        · exact ⟨by decide, by decide⟩
        · exact ⟨fun h => (hprops p hp).2.1 (h ▸ hcv), fun h => (hprops p hp).2.2 (h ▸ hcv)⟩
    rw [splitNL_joinLines _ (by simp) hchars, List.foldl_map]
    rw [foldl_congr_mem (p0 :: m') _ (fun acc p => insertJS acc p.1 p.2) []
      (fun acc p hp => parseEnvStep_line acc p.1 p.2 (hprops p hp).1
        (hprops p hp).2.1 (hprops p hp).2.2 (hq p hp).1 (hq p hp).2.1 (hq p hp).2.2)]
    rw [foldl_insertJS_append (p0 :: m') []
      (fun x _ hc => absurd hc (List.not_mem_nil x)) hnd]
    rfl

/-- C8 (amended): `parseEnvFile` is idempotent under re-serialization for
inputs whose resulting values contain no quote character, no newline, and
do not end in a whitespace character: serializing the mapping back to
`KEY=value` lines and re-parsing yields the same mapping.  (The
counterexample shows the extra trailing-whitespace restriction is needed:
a quoted value may end in a space, which the line-level `trim` of the
re-parse then strips.) -/
theorem parse_idempotent_reserialize (content : String)
    (hq : ∀ p ∈ parseEnvFile content,
      '"' ∉ p.2.toList ∧ '\'' ∉ p.2.toList ∧ '\n' ∉ p.2.toList ∧
        lastNotWS p.2.toList = true) :
    parseEnvFile (serializeEnv (parseEnvFile content)) = parseEnvFile content :=
  parse_serializeEnv (parseEnvFile content)
    (parseEnvFile_props content)
    (parseEnvFile_keys_nodup content)
    (fun p hp => ⟨(hq p hp).1, (hq p hp).2.1, (hq p hp).2.2.2⟩)

/-- Witness for C8 on a three-line input with a repeated key and a quoted
value. -/
theorem parse_idempotent_reserialize_witness :
    (∀ p ∈ parseEnvFile "A=1\nB=\"x y\"\nA=2",
      '"' ∉ p.2.toList ∧ '\'' ∉ p.2.toList ∧ '\n' ∉ p.2.toList ∧
        lastNotWS p.2.toList = true) ∧
    parseEnvFile (serializeEnv (parseEnvFile "A=1\nB=\"x y\"\nA=2")) =
      parseEnvFile "A=1\nB=\"x y\"\nA=2" :=
  ⟨by decide, parse_idempotent_reserialize "A=1\nB=\"x y\"\nA=2" (by decide)⟩

end CoolifyDeploy
